import Mathlib

/-!
# Verification of the `wtf` process tracer, recorder and layout engine

This file is a shallow embedding of the core of the repository:

* the **recorder** (`src/record.rs`): the event-driven in-memory model of the
  observed process tree;
* the **tracer** main loop (`src/trace.rs`, `record_trace_impl`): modelled as a
  fold over an oracle stream of kernel wait statuses, where the data the real
  tracer reads from registers and tracee memory is supplied by the stream;
* the **layout engine** (`src/layout.rs`): time bounds, thread flattening, the
  sweep-line row assignment and the free-row allocator.

Modelling conventions:

* `Pid` is `Nat`; times (`f32` seconds in the source) are modelled as `ℚ`.
  The layout code performs no arithmetic on times, only comparison, `min`,
  `max` and equality, and real recordings contain only finite floats strictly
  between the sentinels `f32::MIN` and `f32::MAX`, so a dense linear order is a
  faithful model.  The sentinels `f32::MAX` / `f32::MIN` used by
  `process_time_bound` are modelled as the `⊤` / `⊥` elements of
  `WithBot (WithTop ℚ)`.
* `IndexMap` is modelled as an insertion-ordered association list with unique
  keys; `insert_first` (which `assert!`s that the key is fresh) either fails or
  appends at the end, matching `IndexMap` insertion order.
* Rust panics (`assert!`, `unwrap`, `expect`) are modelled as `none` / an
  `.error` result.  Recursions of the source that are not structurally
  terminating (the layout recursion follows the child-edge graph, which an
  adversarial recording can make cyclic, in which case the source diverges)
  take an explicit fuel argument; running out of fuel is a distinct error.
* The source files come from slightly different revisions of the repository
  (`layout.rs` destructures `ProcessInfo { time_start, time_end, .. }` while
  `record.rs` stores `time: TimeRange`; `trace.rs`'s `TraceEvent::ProcessExec`
  has no `cwd` field while `record.rs`'s match arm binds one).  The embedding
  uses a single consistent data model: `ProcessInfo.time : TimeRange` (so
  `time_start` is `time.start` and `time_end` is `time.tEnd`), and a single
  `TraceEvent` with an optional `cwd` on `processExec` (the ptrace tracer
  always emits `none` there) and the tracer-era `tick` variant
  (`TraceEvent::Time`), which carries nothing the recorder stores.
-/

set_option linter.unusedVariables false

abbrev Pid := Nat

abbrev Time := ℚ

/-- `ProcessKind` from `src/record.rs`. -/
inductive ProcessKind where
  | process
  | thread
deriving DecidableEq, Repr

/-- `TimeRange` from `src/record.rs`.  The source field `end` is a Lean
keyword and is renamed `tEnd`. -/
structure TimeRange where
  start : Time
  tEnd : Option Time
deriving DecidableEq, Repr

/-- `ProcessExec` from `src/record.rs` (the `layout.rs` revision has no `cwd`
field and ignores it, so carrying it is harmless there). -/
structure ProcessExec where
  time : Time
  cwd : Option String
  path : String
  argv : List String
deriving DecidableEq, Repr

/-- `ProcessInfo` from `src/record.rs`. -/
structure ProcessInfo where
  pid : Pid
  time : TimeRange
  execs : List ProcessExec
  children : List (ProcessKind × Pid)
deriving DecidableEq, Repr

/-- `Recording` from `src/record.rs`.  `processes` models the `IndexMap` as an
insertion-ordered association list with unique keys. -/
structure Recording where
  timeStart : Option Time
  running : Bool
  rootPid : Option Pid
  processes : List (Pid × ProcessInfo)
deriving DecidableEq, Repr

/-- The union of the `TraceEvent` revisions in the sources (see the header
comment): `traceStart`/`traceEnd` appear in the `record.rs`/`poll.rs`
revision, `tick` is `TraceEvent::Time` of the `trace.rs` revision. -/
inductive TraceEvent where
  | traceStart (time : Time)
  | traceEnd
  | processStart (pid : Pid) (time : Time)
  | processExit (pid : Pid) (time : Time)
  | processChild (parent : Pid) (child : Pid) (kind : ProcessKind)
  | processExec (pid : Pid) (time : Time) (cwd : Option String)
      (path : String) (argv : List String)
  | tick (time : Time)
deriving DecidableEq, Repr

/-- `IndexMap::get`: first (and only) entry with the given key. -/
def mapGet {V : Type} : List (Pid × V) → Pid → Option V
  | [], _ => none
  | (k, v) :: rest, p => if k = p then some v else mapGet rest p

/-- `IndexMap::contains_key`. -/
def mapHas {V : Type} (m : List (Pid × V)) (p : Pid) : Bool :=
  (mapGet m p).isSome

/-- `MapExt::insert_first` from `src/util.rs`: insert asserting the key was
absent; `none` models the `assert!` panic.  New keys are appended, matching
`IndexMap` insertion order. -/
def mapInsertFirst {V : Type} (m : List (Pid × V)) (k : Pid) (v : V) :
    Option (List (Pid × V)) :=
  if mapHas m k then none else some (m ++ [(k, v)])

/-- `IndexMap::get_mut` followed by a mutation: update the (unique) entry with
the given key in place. -/
def mapUpdate {V : Type} : List (Pid × V) → Pid → (V → V) → List (Pid × V)
  | [], _, _ => []
  | (k, v) :: rest, p, f =>
      if k = p then (k, f v) :: rest else (k, v) :: mapUpdate rest p f

/-- `Recording::new` from `src/record.rs`. -/
def Recording.new : Recording :=
  { timeStart := none, running := true, rootPid := none, processes := [] }

/-- `Recording::report` from `src/record.rs`.  `none` models a panic:
`insert_first`'s assert on `ProcessStart` of a present pid, and the
`.unwrap()` on `get_mut` for the other process events. -/
def Recording.report (rec : Recording) (event : TraceEvent) : Option Recording :=
  match event with
  | .traceStart time => some { rec with timeStart := some time }
  | .traceEnd => some { rec with running := false }
  | .processStart pid time =>
      match mapInsertFirst rec.processes pid
          { pid := pid, time := { start := time, tEnd := none },
            execs := [], children := [] } with
      | none => none
      | some ps =>
          some { rec with
                 processes := ps,
                 rootPid := if rec.rootPid.isNone then some pid else rec.rootPid }
  | .processExit pid time =>
      if mapHas rec.processes pid then
        some { rec with
               processes := mapUpdate rec.processes pid
                 (fun i => { i with time := { i.time with tEnd := some time } }) }
      else none
  | .processChild parent child kind =>
      if mapHas rec.processes parent then
        some { rec with
               processes := mapUpdate rec.processes parent
                 (fun i => { i with children := i.children ++ [(kind, child)] }) }
      else none
  | .processExec pid time cwd path argv =>
      if mapHas rec.processes pid then
        some { rec with
               processes := mapUpdate rec.processes pid
                 (fun i => { i with execs := i.execs ++
                   [{ time := time, cwd := cwd, path := path, argv := argv }] }) }
      else none
  | .tick _ => some rec

/-- Apply a linear event stream to a recording; `none` as soon as one event
panics. -/
def reportList : Recording → List TraceEvent → Option Recording
  | rec, [] => some rec
  | rec, e :: rest =>
      match rec.report e with
      | none => none
      | some rec' => reportList rec' rest

/-- The pid of the first `ProcessStart` event of a stream, if any. -/
def firstStartPid : List TraceEvent → Option Pid
  | [] => none
  | .processStart pid _ :: _ => some pid
  | _ :: rest => firstStartPid rest

/-- The event shapes on which `Recording::report` panics: a `ProcessStart`
for a pid already present, and `ProcessExit` / `ProcessChild` /
`ProcessExec` whose primary pid is absent. -/
def reportPanics (rec : Recording) (event : TraceEvent) : Prop :=
  match event with
  | .processStart pid _ => mapHas rec.processes pid = true
  | .processExit pid _ => mapHas rec.processes pid = false
  | .processChild parent _ _ => mapHas rec.processes parent = false
  | .processExec pid _ _ _ _ => mapHas rec.processes pid = false
  | _ => False

/-! ## Tracer (`src/trace.rs`)

`record_trace_impl` is modelled as a fold over an oracle stream of kernel
wait statuses.  Each stream element carries the monotonic-clock reading of
that loop iteration and, for a syscall stop, the data the tracer would read
from the tracee (registers, the `clone_args` word, the extracted exec
arguments).  Byte strings read from tracee memory are abstracted as the
already-decoded `String`s (`String::from_utf8_lossy` is applied at emission
in the source; the oracle supplies the decoded result directly). -/

abbrev Errno := Int

/-- The exec arguments extracted from tracee memory
(`ExecArgs` in `src/trace.rs`, with `path`/`argv` already decoded). -/
structure ExecArgs where
  path : String
  argv : List String
deriving DecidableEq, Repr

/-- The syscall numbers the tracer distinguishes (`Sysno` classification in
`record_trace_impl`); every other number, and unknown numbers, classify as
`Ignore`, so they are collapsed into `unknown`. -/
inductive SysNr where
  | clone
  | clone3
  | fork
  | vfork
  | execve
  | execveat
  | exitSyscall
  | exitGroup
  | unknown
deriving DecidableEq, Repr

/-- The data available at one syscall stop.  On an entry stop the tracer
reads `nr` and the arguments (plus tracee memory); on an exit stop it reads
the return value `sval`.  The model carries both readings and the tracer
uses whichever half its entry/exit toggle selects, like the register reads
in `ptrace_syscall_info_entry` / `ptrace_syscall_info_exit`. -/
structure SyscallStop where
  nr : SysNr
  /-- `info.args[0]`, the flags argument of `clone`. -/
  argCloneFlags : Nat
  /-- `info.args[1]`, the size argument of `clone3`. -/
  cloneArgsSize : Nat
  /-- the first word of the `clone_args` struct read from tracee memory. -/
  memCloneFlags : Nat
  /-- result of `ptrace_extract_exec_args` for `execve`/`execveat`. -/
  execArgs : ExecArgs
  /-- `info.sval`, the return value at the exit stop. -/
  sval : Int
deriving DecidableEq, Repr

/-- The signals `record_trace_impl` distinguishes in signal-delivery stops. -/
inductive Sig where
  | sigstop
  | sigtrap
  | otherSig
deriving DecidableEq, Repr

/-- One `WaitStatus` as dispatched by the tracer loop.  `exited` covers both
`WaitStatus::Exited` and `WaitStatus::Signaled` (same arm in the source);
`Continued`/`StillAlive` are unreachable and not modelled. -/
inductive WStatus where
  | ptraceSyscall (pid : Pid) (s : SyscallStop)
  | ptraceEvent (pid : Pid)
  | exited (pid : Pid)
  | stopped (pid : Pid) (sig : Sig)
deriving DecidableEq, Repr

/-- One iteration's worth of oracle input: the wait status and the
`time_start.elapsed()` reading of that iteration. -/
structure TimedStatus where
  time : Time
  status : WStatus
deriving DecidableEq, Repr

/-- `SyscallEntry` from `src/trace.rs`. -/
inductive SyscallEntry where
  | ignore
  | fork (kind : ProcessKind)
  | exec (args : ExecArgs)
deriving DecidableEq, Repr

/-- `libc::CLONE_THREAD`. -/
def CLONE_THREAD : Nat := 65536

/-- `process_kind_from_clone_flags` from `src/trace.rs`. -/
def processKindFromCloneFlags (flags : Nat) : ProcessKind :=
  if flags &&& CLONE_THREAD ≠ 0 then ProcessKind.thread else ProcessKind.process

/-- The syscall-entry classification of `record_trace_impl` (the big `match
nr` on entry stops). -/
def classifySyscall (s : SyscallStop) : SyscallEntry :=
  match s.nr with
  | .clone => .fork (processKindFromCloneFlags s.argCloneFlags)
  | .clone3 =>
      .fork (processKindFromCloneFlags
        (if 8 ≤ s.cloneArgsSize then s.memCloneFlags else 0))
  | .fork => .fork .process
  | .vfork => .fork .process
  | .execve => .exec s.execArgs
  | .execveat => .exec s.execArgs
  | .exitSyscall => .ignore
  | .exitGroup => .ignore
  | .unknown => .ignore

/-- `HashMap::remove` on the partial-syscall table: the removed value and the
remaining table. -/
def pendingRemove : List (Pid × SyscallEntry) → Pid →
    Option (SyscallEntry × List (Pid × SyscallEntry))
  | [], _ => none
  | (k, v) :: rest, p =>
      if k = p then some (v, rest)
      else
        match pendingRemove rest p with
        | none => none
        | some (v', rest') => some (v', (k, v) :: rest')

/-- `HashMap::remove` ignoring the removed value (the task-exit cleanup). -/
def pendingErase (m : List (Pid × SyscallEntry)) (p : Pid) :
    List (Pid × SyscallEntry) :=
  match pendingRemove m p with
  | none => m
  | some (_, rest) => rest

/-- The tracer callback.  The real callback is an `FnMut` closure returning
`ControlFlow`; a deterministic stateful callback is modelled as a pure
function of the events delivered so far, returning `true` for `Break`. -/
abbrev TraceCb := List TraceEvent → TraceEvent → Bool

/-- The mutable state of the tracer loop.  `emitted` is the sequence of
events delivered to the callback so far (the callback's input history);
`rootExecSvals` and `execExits` are ghost observation logs used only by the
specification: no non-ghost field depends on them. -/
structure TracerState where
  pendingSyscalls : List (Pid × SyscallEntry)
  activeProcesses : List Pid
  rootExecAnySuccess : Bool
  rootExecLastError : Option Errno
  emitted : List TraceEvent
  /-- ghost: the return values of every exec syscall exit observed on the
  root task, in order. -/
  rootExecSvals : List Int
  /-- ghost: every exec syscall exit observed, with its pid, iteration time,
  extracted arguments and return value. -/
  execExits : List (Pid × Time × ExecArgs × Int)
deriving DecidableEq, Repr

/-- The state transition of a syscall-exit stop whose stored entry is
`SyscallEntry::Exec` (the spawn-error tracking of `record_trace_impl` plus
the ghost logs): if there has been no successful root exec yet and this exec
is on the root, record the errno of a failing attempt or set the success
flag; the ghost logs record the observation unconditionally. -/
def execExitUpdate (st : TracerState) (root pid : Pid) (args : ExecArgs)
    (sval : Int) (tnow : Time) : TracerState :=
  let st :=
    if !st.rootExecAnySuccess && pid = root then
      if sval < 0 then { st with rootExecLastError := some (-sval) }
      else { st with rootExecAnySuccess := true }
    else st
  let st :=
    if pid = root then { st with rootExecSvals := st.rootExecSvals ++ [sval] }
    else st
  { st with execExits := st.execExits ++ [(pid, tnow, args, sval)] }

/-- Deliver one event to the callback; `true` means the callback broke. -/
def emitEvent (cb : TraceCb) (st : TracerState) (e : TraceEvent) :
    Bool × TracerState :=
  (cb st.emitted e, { st with emitted := st.emitted ++ [e] })

/-- How the tracer loop ended: the callback broke, the root task exited, or
the oracle stream ran out (the real loop would still be blocked in
`waitpid`). -/
inductive LoopRes where
  | broke (st : TracerState)
  | rootExited (st : TracerState)
  | inputEnded (st : TracerState)
deriving Repr

/-- The main tracing event loop of `record_trace_impl`, one oracle element
per iteration. -/
def traceLoop (cb : TraceCb) (root : Pid) :
    List TimedStatus → TracerState → LoopRes
  | [], st => .inputEnded st
  | ts :: rest, st =>
    -- callback(TraceEvent::Time { time })?
    let (brk, st) := emitEvent cb st (.tick ts.time)
    if brk then .broke st else
    match ts.status with
    | .ptraceSyscall pid s =>
        match pendingRemove st.pendingSyscalls pid with
        | none =>
            -- syscall entry: classify and store
            traceLoop cb root rest
              { st with pendingSyscalls :=
                  st.pendingSyscalls ++ [(pid, classifySyscall s)] }
        | some (stored, pending') =>
            -- syscall exit: dispatch on the stored classification
            let st := { st with pendingSyscalls := pending' }
            match stored with
            | .ignore => traceLoop cb root rest st
            | .fork kind =>
                if 0 < s.sval then
                  let (brk, st) := emitEvent cb st
                    (.processChild pid s.sval.toNat kind)
                  if brk then .broke st else traceLoop cb root rest st
                else traceLoop cb root rest st
            | .exec args =>
                let st := execExitUpdate st root pid args s.sval ts.time
                if s.sval = 0 then
                  let (brk, st) := emitEvent cb st
                    (.processExec pid ts.time none args.path args.argv)
                  if brk then .broke st else traceLoop cb root rest st
                else traceLoop cb root rest st
    | .ptraceEvent _ => traceLoop cb root rest st
    | .exited pid =>
        let (brk, st) := emitEvent cb st (.processExit pid ts.time)
        if brk then .broke st else
        let st := { st with pendingSyscalls := pendingErase st.pendingSyscalls pid }
        if pid = root then .rootExited st else traceLoop cb root rest st
    | .stopped pid sig =>
        if (sig = Sig.sigstop ∨ sig = Sig.sigtrap) ∧ pid ∉ st.activeProcesses then
          let (brk, st) := emitEvent cb st (.processStart pid ts.time)
          if brk then .broke st
          else traceLoop cb root rest
            { st with activeProcesses := st.activeProcesses ++ [pid] }
        else traceLoop cb root rest st

/-- The tracer state at the start of the loop (after forking, waiting for the
self-stop and installing the trace options). -/
def initTracerState (root : Pid) : TracerState :=
  { pendingSyscalls := [], activeProcesses := [root],
    rootExecAnySuccess := false, rootExecLastError := none,
    emitted := [], rootExecSvals := [], execExits := [] }

/-- The spawn protocol plus the loop: emit `ProcessStart(root, 0)` and run. -/
def traceRun (cb : TraceCb) (root : Pid) (input : List TimedStatus) : LoopRes :=
  let (brk, st) := emitEvent cb (initTracerState root) (.processStart root 0)
  if brk then .broke st else traceLoop cb root input st

/-- Result of `record_trace_impl`: `expectFail` models the
`.expect("there wasn't any exec attempt")` panic. -/
inductive ImplRes where
  | broke (st : TracerState)
  | ok (st : TracerState)
  | spawnFailed (e : Errno) (st : TracerState)
  | expectFail (st : TracerState)
  | inputEnded (st : TracerState)
deriving Repr

/-- `record_trace_impl` from `src/trace.rs`: run the loop, then surface
`SpawnFailed` if the root exited without any successful exec. -/
def recordTraceImpl (cb : TraceCb) (root : Pid) (input : List TimedStatus) :
    ImplRes :=
  match traceRun cb root input with
  | .broke st => .broke st
  | .inputEnded st => .inputEnded st
  | .rootExited st =>
      if st.rootExecAnySuccess then .ok st
      else
        match st.rootExecLastError with
        | some e => .spawnFailed e st
        | none => .expectFail st

/-- Result of the public `record_trace`. -/
inductive TraceRes where
  | ok (st : TracerState)
  | err (e : Errno) (st : TracerState)
  | expectFail (st : TracerState)
  | inputEnded (st : TracerState)
deriving Repr

/-- `record_trace` from `src/trace.rs`: a callback `Break` becomes `Ok`. -/
def recordTrace (cb : TraceCb) (root : Pid) (input : List TimedStatus) :
    TraceRes :=
  match recordTraceImpl cb root input with
  | .broke st => .ok st
  | .ok st => .ok st
  | .spawnFailed e st => .err e st
  | .expectFail st => .expectFail st
  | .inputEnded st => .inputEnded st

/-- One step of the root-exec flag evolution (see `execFlagsSpec`). -/
def execFlagsStep (acc : Bool × Option Errno) (v : Int) : Bool × Option Errno :=
  if !acc.1 then
    if v < 0 then (acc.1, some (-v)) else (true, acc.2)
  else acc

/-- Specification mirror of the root-exec flag updates: fold the observed
root exec return values into `(root_exec_any_success, root_exec_last_error)`. -/
def execFlagsSpec (svals : List Int) : Bool × Option Errno :=
  svals.foldl execFlagsStep (false, none)

/-- The `ProcessExec` events among a delivered event list. -/
def isExecEvent : TraceEvent → Bool
  | .processExec _ _ _ _ _ => true
  | _ => false

/-- The event a successful logged exec exit gives rise to. -/
def execExitEvent (q : Pid × Time × ExecArgs × Int) : TraceEvent :=
  .processExec q.1 q.2.1 none q.2.2.1.path q.2.2.1.argv

/-! ## Layout engine (`src/layout.rs`)

The layout recursion walks the child-edge graph of the recording, which an
adversarial recording can make cyclic (the source would then recurse
forever), so every recursive function takes fuel; `.error .fuelOut` models
divergence.  `.error .assertFail` models a panic (`assert!` in
`FreeList::release`, `insert_first` on `children_active`, an out-of-bounds
index).  The `TimeCache` of the source is pure memoisation of
`process_time_bound`, a deterministic function of `(rec, pid)`; it changes
no result and is omitted.  All recursion is structural in the fuel (or in a
list), so the definitions evaluate by `rfl`/`decide`. -/

/-- `f32` extended with the sentinels: `⊥` models `f32::MIN`, `⊤` models
`f32::MAX` (see the header comment). -/
abbrev FTime := WithBot (WithTop ℚ)

/-- A finite time as an `FTime`. -/
def FTime.fin (t : Time) : FTime := ((t : WithTop ℚ) : FTime)

/-- `f32::MIN`, the initial `bound_max`. -/
def ftBot : FTime := ⊥

/-- `f32::MAX`, the initial `bound_min`. -/
def ftTop : FTime := ((⊤ : WithTop ℚ) : FTime)

/-- Layout failure: `assertFail` models a panic, `fuelOut` models
divergence of the source recursion. -/
inductive LErr where
  | assertFail
  | fuelOut
deriving DecidableEq, Repr

/-- `PlacedProcess` from `src/layout.rs`; `time_bound: RangeInclusive<f32>`
is the pair `(start, end)`. -/
structure PlacedProcess where
  pid : Pid
  depth : Nat
  rowOffset : Nat
  rowHeight : Nat
  children : List PlacedProcess
  maxDepth : Nat
  timeBound : FTime × FTime
deriving Repr

/-- The thread-flattening walk `f` inside `place_process` (the
`include_threads == false` branch), as a fold over a child list: `Process`
children are collected, `Thread` children are recursed through (`recurse` is
the walk on the thread child, at one less fuel). -/
def flattenGo (recurse : Pid → Except LErr (List Pid)) :
    List (ProcessKind × Pid) → Except LErr (List Pid)
  | [] => .ok []
  | (.process, c) :: rest =>
      match flattenGo recurse rest with
      | .error e => .error e
      | .ok r => .ok (c :: r)
  | (.thread, c) :: rest =>
      match recurse c with
      | .error e => .error e
      | .ok sub =>
          match flattenGo recurse rest with
          | .error e => .error e
          | .ok r => .ok (sub ++ r)

/-- `f(rec, &mut children, curr)` of the flattening walk: look the pid up and
walk its child list.  The fuel bounds the thread-chain depth (the source
recursion diverges on a thread-edge cycle). -/
def flattenChildren (rec : Recording) : Nat → Pid → Except LErr (List Pid)
  | 0, _ => .error .fuelOut
  | fuel + 1, pid =>
      match mapGet rec.processes pid with
      | none => .ok []
      | some info => flattenGo (fun c => flattenChildren rec fuel c) info.children

/-- `process_for_each_time` from `src/layout.rs`: the process's own observed
times, in visit order (`time_start`, `time_end` when set, each exec time). -/
def processTimes (info : ProcessInfo) : List Time :=
  info.time.start ::
    ((match info.time.tEnd with
      | some e => [e]
      | none => []) ++ info.execs.map (fun x => x.time))

/-- Accumulate the process's own times into `(bound_min, bound_max)`. -/
def ownTimesFold (info : ProcessInfo) (acc : FTime × FTime) : FTime × FTime :=
  (processTimes info).foldl
    (fun a t => (min a.1 (FTime.fin t), max a.2 (FTime.fin t))) acc

/-- The child loop of `process_time_bound`, accumulating
`(bound_min, bound_max)` over the (original) child list; `recurse` is the
recursive call at one less fuel. -/
def tbChildren (recurse : Pid → Except LErr (FTime × FTime)) :
    List (ProcessKind × Pid) → FTime × FTime → Except LErr (FTime × FTime)
  | [], acc => .ok acc
  | (_, c) :: rest, acc =>
      match recurse c with
      | .error e => .error e
      | .ok cb => tbChildren recurse rest (min acc.1 cb.1, max acc.2 cb.2)

/-- `process_time_bound` from `src/layout.rs` (without the memoisation
cache, see the section comment): children first, then the process's own
times, starting from the sentinels `(f32::MAX, f32::MIN)`.  A pid absent
from the map keeps the sentinel bound. -/
def processTimeBound (rec : Recording) : Nat → Pid → Except LErr (FTime × FTime)
  | 0, _ => .error .fuelOut
  | fuel + 1, pid =>
      match mapGet rec.processes pid with
      | none => .ok (ftTop, ftBot)
      | some info =>
          match tbChildren (fun c => processTimeBound rec fuel c)
              info.children (ftTop, ftBot) with
          | .error e => .error e
          | .ok acc => .ok (ownTimesFold info acc)

/-- The `time_to_events` table: an insertion-ordered association list from a
time to the pids starting (`.1`) and ending (`.2`) at that time. -/
abbrev EventTable := List (FTime × (List Pid × List Pid))

/-- `time_to_events.entry(t).or_default().0.push(c)`. -/
def tteAddStart : EventTable → FTime → Pid → EventTable
  | [], t, c => [(t, ([c], []))]
  | (k, (s, e)) :: rest, t, c =>
      if k = t then (k, (s ++ [c], e)) :: rest
      else (k, (s, e)) :: tteAddStart rest t c

/-- `time_to_events.entry(t).or_default().1.push(c)`. -/
def tteAddEnd : EventTable → FTime → Pid → EventTable
  | [], t, c => [(t, ([], [c]))]
  | (k, (s, e)) :: rest, t, c =>
      if k = t then (k, (s, e ++ [c])) :: rest
      else (k, (s, e)) :: tteAddEnd rest t c

/-- The child loop of `place_process` that fills `time_to_events`: compute
each child's time bound, skip zero-duration children, record a start and an
end event. -/
def buildEvents (bound : Pid → Except LErr (FTime × FTime)) :
    List Pid → EventTable → Except LErr EventTable
  | [], acc => .ok acc
  | c :: rest, acc =>
      match bound c with
      | .error e => .error e
      | .ok cb =>
          buildEvents bound rest
            (if cb.1 = cb.2 then acc
             else tteAddEnd (tteAddStart acc cb.1 c) cb.2 c)

instance : DecidableRel
    (fun (a b : FTime × (List Pid × List Pid)) => a.1 ≤ b.1) :=
  fun a b => inferInstanceAs (Decidable (a.1 ≤ b.1))

instance :
    IsTotal (FTime × (List Pid × List Pid)) (fun a b => a.1 ≤ b.1) :=
  ⟨fun a b => le_total a.1 b.1⟩

instance :
    IsTrans (FTime × (List Pid × List Pid)) (fun a b => a.1 ≤ b.1) :=
  ⟨fun _ _ _ hab hbc => le_trans hab hbc⟩

/-- `itertools::sorted_by_key` over the event table (its keys are unique, so
any sort by key produces the same list). -/
def sortEvents (l : EventTable) : EventTable :=
  List.insertionSort (fun a b => a.1 ≤ b.1) l

/-- `mask.getD i false`: reading the free-row mask (`true` = free). -/
def maskGet (mask : List Bool) (i : Nat) : Bool :=
  mask.getD i false

/-- The first-fit search of `FreeList::allocate`: does a run of `len` rows
starting at `s` fit (rows beyond the current mask length can be created by
extension, so only indices below the length are checked)? -/
def maskFits (mask : List Bool) (s len : Nat) : Bool :=
  (List.range' s (min (s + len) mask.length - s)).all (fun i => maskGet mask i)

/-- The start row chosen by `FreeList::allocate`: the smallest fitting index,
or the mask length if none fits. -/
def findStart (mask : List Bool) (len : Nat) : Nat :=
  match (List.range mask.length).find? (fun s => maskFits mask s len) with
  | some s => s
  | none => mask.length

/-- Clear (`= false`) `n` rows starting at `lo`. -/
def setFalseRun : List Bool → Nat → Nat → List Bool
  | mask, _, 0 => mask
  | mask, lo, n + 1 => setFalseRun (mask.set lo false) (lo + 1) n

/-- `FreeList::allocate` from `src/layout.rs`: first fit, extend the mask
with free rows if needed, clear the allocated run, return its start. -/
def freeAllocate (mask : List Bool) (len : Nat) : Nat × List Bool :=
  let start := findStart mask len
  let extended := mask ++ List.replicate (start + len - mask.length) true
  (start, setFalseRun extended start len)

/-- The body of `FreeList::release` on rows `[lo, lo + n)`: each row must
currently be in use (`assert!(!self.mask[i])`, and an index panic if out of
bounds), and becomes free. -/
def freeRelease : List Bool → Nat → Nat → Except LErr (List Bool)
  | mask, _, 0 => .ok mask
  | mask, lo, n + 1 =>
      match mask.get? lo with
      | none => .error .assertFail
      | some true => .error .assertFail
      | some false => freeRelease (mask.set lo true) (lo + 1) n

/-- The sweep state of `place_process`: the free-row mask, the
`children_active` map from pid to its allocated row range `[lo, hi)`, the
placed children so far, and the running `max_depth`. -/
structure SweepState where
  free : List Bool
  active : List (Pid × (Nat × Nat))
  placed : List PlacedProcess
  maxDepth : Nat

/-- `children_active.swap_remove(&child)`: the removed range and the
remaining map (order of the remainder is never observed by the source). -/
def activeRemove : List (Pid × (Nat × Nat)) → Pid →
    Option ((Nat × Nat) × List (Pid × (Nat × Nat)))
  | [], _ => none
  | (k, r) :: rest, p =>
      if k = p then some (r, rest)
      else
        match activeRemove rest p with
        | none => none
        | some (r', rest') => some (r', (k, r) :: rest')

/-- The child-end half of one sweep tick: release the rows of each ending
child that is active. -/
def endsGo : List Pid → SweepState → Except LErr SweepState
  | [], st => .ok st
  | c :: cs, st =>
      match activeRemove st.active c with
      | none => endsGo cs st
      | some (r, active') =>
          match freeRelease st.free r.1 (r.2 - r.1) with
          | .error e => .error e
          | .ok free' => endsGo cs { st with free := free', active := active' }

/-- The child-start half of one sweep tick: recursively place each starting
child (`place` is `place_process` at one less fuel; a `none` child is
skipped), allocate its rows, offset it by `1 + row`, and record it in
`children_active` (whose `insert_first` asserts the pid was not active). -/
def startsGo (place : Pid → Except LErr (Option PlacedProcess)) :
    List Pid → SweepState → Except LErr SweepState
  | [], st => .ok st
  | c :: cs, st =>
      match place c with
      | .error e => .error e
      | .ok none => startsGo place cs st
      | .ok (some cp) =>
          let h := cp.rowHeight
          let (row, free') := freeAllocate st.free h
          if (activeRemove st.active c).isSome then .error .assertFail
          else
            startsGo place cs
              { free := free',
                active := st.active ++ [(c, (row, row + h))],
                placed := st.placed ++ [{ cp with rowOffset := 1 + row }],
                maxDepth := max st.maxDepth cp.maxDepth }

/-- The sweep over the sorted event buckets: at each time, ends first, then
starts. -/
def sweepGo (place : Pid → Except LErr (Option PlacedProcess)) :
    List (List Pid × List Pid) → SweepState → Except LErr SweepState
  | [], st => .ok st
  | (starts, ends) :: rest, st =>
      match endsGo ends st with
      | .error e => .error e
      | .ok st1 =>
          match startsGo place starts st1 with
          | .error e => .error e
          | .ok st2 => sweepGo place rest st2

/-- `place_process` from `src/layout.rs`.  The `assert_eq!(row_offset, 0)`
on recursive results is omitted: every constructed result has
`rowOffset = 0` (`placeProcess_rowOffset` below proves it). -/
def placeProcess (rec : Recording) (includeThreads : Bool) :
    Nat → Pid → Nat → Except LErr (Option PlacedProcess)
  | 0, _, _ => .error .fuelOut
  | fuel + 1, pid, depth =>
      match mapGet rec.processes pid with
      | none => .ok none
      | some info =>
          match (if includeThreads
                 then .ok (info.children.map (fun kc => kc.2))
                 else flattenChildren rec (fuel + 1) pid) with
          | .error e => .error e
          | .ok children =>
              match buildEvents (fun c => processTimeBound rec (fuel + 1) c)
                  children [] with
              | .error e => .error e
              | .ok tte =>
                  match sweepGo
                      (fun c => placeProcess rec includeThreads fuel c (depth + 1))
                      ((sortEvents tte).map (fun kv => kv.2))
                      { free := [], active := [], placed := [], maxDepth := depth } with
                  | .error e => .error e
                  | .ok st =>
                      match processTimeBound rec (fuel + 1) pid with
                      | .error e => .error e
                      | .ok tb =>
                          .ok (some
                            { pid := pid, depth := depth, rowOffset := 0,
                              rowHeight := 1 + st.free.length,
                              children := st.placed, maxDepth := st.maxDepth,
                              timeBound := tb })

/-- `place_processes` from `src/layout.rs`. -/
def placeProcesses (rec : Recording) (includeThreads : Bool) (fuel : Nat) :
    Except LErr (Option PlacedProcess) :=
  match rec.rootPid with
  | none => .ok none
  | some rootPid => placeProcess rec includeThreads fuel rootPid 0

/-! ### Specification devices (state extractors and invariant predicates) -/

/-- The tracer state carried by a loop result. -/
def LoopRes.state : LoopRes → TracerState
  | .broke st => st
  | .rootExited st => st
  | .inputEnded st => st

/-- The tracer state carried by a public trace result. -/
def TraceRes.state : TraceRes → TracerState
  | .ok st => st
  | .err _ st => st
  | .expectFail st => st
  | .inputEnded st => st

/-- The `(start, end)` pair computed by `process_time_bound`, as a total
function (the sentinel pair on a fuel error; only used where the call is
known to succeed). -/
def timeBoundVal (rec : Recording) (fuel : Nat) (c : Pid) : FTime × FTime :=
  match processTimeBound rec fuel c with
  | .ok b => b
  | .error _ => (ftTop, ftBot)

/-- The tracer loop invariant tying the ghost logs to the visible state:
the root-exec flags are the fold of the observed root exec return values,
and the `ProcessExec` events delivered so far are exactly the successful
logged exec exits. -/
def TracerInv (st : TracerState) : Prop :=
  (st.rootExecAnySuccess, st.rootExecLastError) = execFlagsSpec st.rootExecSvals ∧
  st.emitted.filter isExecEvent =
    st.execExits.filterMap
      (fun q => if q.2.2.2 = 0 then some (execExitEvent q) else none)

/-- The rows `[rowOffset - 1, rowOffset - 1 + rowHeight)` a placed child
occupies in its parent's free-row mask (its `row_offset` is `1 + row`). -/
def pRange (p : PlacedProcess) : Nat × Nat :=
  (p.rowOffset - 1, p.rowOffset - 1 + p.rowHeight)

/-- Two `[lo, hi)` row ranges have no common row. -/
def rangesDisjoint (a b : Nat × Nat) : Prop :=
  ∀ j, ¬(a.1 ≤ j ∧ j < a.2 ∧ b.1 ≤ j ∧ j < b.2)

/-- The rows `[lo, hi)` all lie inside the mask and are marked in use. -/
def cellsOccupied (mask : List Bool) (r : Nat × Nat) : Prop :=
  r.2 ≤ mask.length ∧ ∀ j, r.1 ≤ j → j < r.2 → maskGet mask j = false

/-- Lookup in the `children_active` map. -/
def activeLookup (l : List (Pid × (Nat × Nat))) (p : Pid) : Option (Nat × Nat) :=
  match l with
  | [] => none
  | (k, r) :: rest => if k = p then some r else activeLookup rest p

/-- Geometric sweep invariant: every active child's rows are in use, and
the active entries have distinct pids and pairwise disjoint row ranges. -/
def ActiveOk (st : SweepState) : Prop :=
  (∀ e ∈ st.active, cellsOccupied st.free e.2) ∧
  List.Pairwise (fun e1 e2 => e1.1 ≠ e2.1 ∧ rangesDisjoint e1.2 e2.2) st.active

/-- The time intervals of two placed tasks overlap: some instant lies in
both half-open activity intervals `[start, end)` (the sweep frees a row at
the instant its task's bound ends, so an end touching a start is not an
overlap — the source processes ends before starts at equal times). -/
def BoundsOverlap (a b : FTime × FTime) : Prop :=
  a.1 < b.2 ∧ b.1 < a.2

/-- The target pairwise property of a sibling list: overlapping time bounds
force disjoint occupied row ranges. -/
def PairsOk (l : List PlacedProcess) : Prop :=
  List.Pairwise
    (fun a b => BoundsOverlap a.timeBound b.timeBound →
      rangesDisjoint (pRange a) (pRange b)) l

/-- `(node, absolute row)` pairs enumerated by `PlacedProcess::visit`
(`visit_impl` adds each node's `row_offset` to the accumulated offset and
recurses into its children with the new offset). -/
inductive ReachesAt : PlacedProcess → Nat → PlacedProcess → Nat → Prop where
  | here (t : PlacedProcess) (base : Nat) : ReachesAt t base t (base + t.rowOffset)
  | child (t : PlacedProcess) (base : Nat) (c : PlacedProcess) (n : PlacedProcess)
      (off : Nat) (hc : c ∈ t.children)
      (h : ReachesAt c (base + t.rowOffset) n off) : ReachesAt t base n off

/-- A predicate holding at every node of a placed tree. -/
inductive EveryNode (P : PlacedProcess → Prop) : PlacedProcess → Prop where
  | mk (t : PlacedProcess) (hroot : P t)
      (hchildren : ∀ c ∈ t.children, EveryNode P c) : EveryNode P t

/-- The per-node property claim C2 needs: sibling children with overlapping
bounds occupy disjoint rows, and every child sits below its parent's header
row (`row_offset ≥ 1`). -/
def NodeOk (t : PlacedProcess) : Prop :=
  PairsOk t.children ∧ ∀ c ∈ t.children, 1 ≤ c.rowOffset

/-- Per-placed-child facts maintained by the sweep, relative to the bound
function `B`, the current `children_active` map and two temporal bounds
(`bEnd` constrains the bound end of a child already released, `bStart` the
bound start of every placed child). -/
def PlacedFacts (B : Pid → FTime × FTime) (active : List (Pid × (Nat × Nat)))
    (bEnd bStart : FTime → Prop) (p : PlacedProcess) : Prop :=
  1 ≤ p.rowOffset ∧ p.timeBound = B p.pid ∧
  (∀ r, activeLookup active p.pid = some r → r = pRange p) ∧
  (activeLookup active p.pid = none → bEnd (B p.pid).2) ∧
  bStart (B p.pid).1

/-- The full sweep invariant. -/
def SweepOk (B : Pid → FTime × FTime) (bEnd bStart : FTime → Prop)
    (st : SweepState) : Prop :=
  ActiveOk st ∧ PairsOk st.placed ∧
  ∀ p ∈ st.placed, PlacedFacts B st.active bEnd bStart p

/-- The facts `buildEvents` guarantees for each entry of the event table:
every pid in a start (resp. end) bucket has a successfully computed,
non-degenerate time bound whose start (resp. end) is the bucket key. -/
def TTEFacts (bound : Pid → Except LErr (FTime × FTime)) (tte : EventTable) :
    Prop :=
  ∀ kse ∈ tte,
    (∀ c ∈ kse.2.1, ∃ b, bound c = .ok b ∧ b.1 = kse.1 ∧ b.1 ≠ b.2) ∧
    (∀ c ∈ kse.2.2, ∃ b, bound c = .ok b ∧ b.2 = kse.1 ∧ b.1 ≠ b.2)

/-- A throwaway placed node (for total projections in concrete statements). -/
def dummyPlaced : PlacedProcess :=
  { pid := 0, depth := 0, rowOffset := 0, rowHeight := 0, children := [],
    maxDepth := 0, timeBound := (ftBot, ftBot) }

/-- Total projection of a layout result to its placed tree. -/
def placedOrDefault (r : Except LErr (Option PlacedProcess)) : PlacedProcess :=
  match r with
  | .ok (some t) => t
  | _ => dummyPlaced

/-- Insert one thread edge: give `host` a new trailing `Thread` edge to a
fresh, childless task `tpid` described by `tinfo` (claim C4's
transformation). -/
def insertThread (rec : Recording) (host tpid : Pid) (tinfo : ProcessInfo) :
    Recording :=
  { rec with processes :=
      (mapUpdate rec.processes host
        (fun i => { i with children := i.children ++ [(.thread, tpid)] })
        ++ [(tpid, tinfo)]) }

/-- A concrete recording exercising claim C2: root 1 runs children 2
(time bound `[1, 3]`) and 3 (time bound `[2, 4]`), whose activity
intervals overlap on `(2, 3)`. -/
def recC2 : Recording :=
  { timeStart := none, running := true, rootPid := some 1,
    processes :=
      [ (1, { pid := 1, time := { start := 0, tEnd := some 10 },
              execs := [], children := [(.process, 2), (.process, 3)] }),
        (2, { pid := 2, time := { start := 1, tEnd := some 3 },
              execs := [], children := [] }),
        (3, { pid := 3, time := { start := 2, tEnd := some 4 },
              execs := [], children := [] }) ] }

/-- The placed tree of `recC2`. -/
def tC2 : PlacedProcess := placedOrDefault (placeProcesses recC2 false 10)

/-- A concrete recording exercising claim C4: root 1 runs children 2
(time bound `[1, 2]`) and 3 (time bound `[3, 4]`), which do not overlap. -/
def recC4 : Recording :=
  { timeStart := none, running := true, rootPid := some 1,
    processes :=
      [ (1, { pid := 1, time := { start := 0, tEnd := some 10 },
              execs := [], children := [(.process, 2), (.process, 3)] }),
        (2, { pid := 2, time := { start := 1, tEnd := some 2 },
              execs := [], children := [] }),
        (3, { pid := 3, time := { start := 3, tEnd := some 4 },
              execs := [], children := [] }) ] }

/-- A childless thread task with times `[1, 6]`, reaching outside its
host's own time bound. -/
def thC4 : ProcessInfo :=
  { pid := 4, time := { start := 1, tEnd := some 6 }, execs := [],
    children := [] }

/-- A childless thread task with times `[1, 2]`, inside its host's
time bound. -/
def thC4w : ProcessInfo :=
  { pid := 4, time := { start := 1, tEnd := some 2 }, execs := [],
    children := [] }

/-! ## Theorems -/

/-! ### Map lemmas -/

theorem mapGet_mapUpdate {V : Type} (m : List (Pid × V)) (p q : Pid) (f : V → V) :
    mapGet (mapUpdate m p f) q =
      if q = p then (mapGet m p).map f else mapGet m q := by
  induction m with
  | nil => simp [mapGet, mapUpdate]
  | cons kv rest ih =>
      obtain ⟨k, v⟩ := kv
      by_cases hk : k = p
      · subst hk
        by_cases hq : q = k
        · simp [mapGet, mapUpdate, hq]
        · simp [mapGet, mapUpdate, hq, Ne.symm hq]
      · by_cases hq : k = q
        · subst hq
          simp [mapGet, mapUpdate, hk, Ne.symm hk]
        · simp [mapGet, mapUpdate, hk, hq, ih]

theorem mapHas_mapUpdate {V : Type} (m : List (Pid × V)) (p q : Pid) (f : V → V) :
    mapHas (mapUpdate m p f) q = mapHas m q := by
  by_cases hq : q = p <;>
    simp [mapHas, mapGet_mapUpdate, hq, Option.isSome_map]


/-! ### Recorder: rootPid evolution and claims C7, C8 -/

theorem report_processStart_rootPid (rec : Recording) (p : Pid) (t : Time)
    (rec' : Recording) (h : Recording.report rec (.processStart p t) = some rec') :
    rec'.rootPid = if rec.rootPid.isNone then some p else rec.rootPid := by
  simp only [Recording.report, mapInsertFirst] at h
  split at h
  · simp at h
  · injection h with h
    subst h
    rfl

theorem report_other_rootPid (rec : Recording) (e : TraceEvent) (rec' : Recording)
    (h : Recording.report rec e = some rec')
    (hne : ∀ p t, e ≠ .processStart p t) :
    rec'.rootPid = rec.rootPid := by
  cases e with
  | processStart p t => exact absurd rfl (hne p t)
  | traceStart t => injection h with h; subst h; rfl
  | traceEnd => injection h with h; subst h; rfl
  | tick t => injection h with h; subst h; rfl
  | processExit p t =>
      simp only [Recording.report] at h
      split at h
      · injection h with h; subst h; rfl
      · simp at h
  | processChild p c k =>
      simp only [Recording.report] at h
      split at h
      · injection h with h; subst h; rfl
      · simp at h
  | processExec p t cwd path argv =>
      simp only [Recording.report] at h
      split at h
      · injection h with h; subst h; rfl
      · simp at h

theorem reportList_rootPid (evs : List TraceEvent) (rec rec' : Recording)
    (h : reportList rec evs = some rec') :
    rec'.rootPid =
      match rec.rootPid with
      | some r => some r
      | none => firstStartPid evs := by
  induction evs generalizing rec with
  | nil =>
      simp only [reportList] at h
      injection h with h
      subst h
      cases rec.rootPid <;> rfl
  | cons e rest ih =>
      simp only [reportList] at h
      cases he : Recording.report rec e with
      | none => rw [he] at h; exact absurd h (by simp)
      | some rec1 =>
          rw [he] at h
          have h2 := ih rec1 h
          cases e with
          | processStart p t =>
              have h1 := report_processStart_rootPid rec p t rec1 he
              cases hr : rec.rootPid with
              | none =>
                  rw [hr] at h1
                  simp only [Option.isNone_none, if_true] at h1
                  simp [h2, h1, firstStartPid]
              | some r =>
                  rw [hr] at h1
                  simp only [Option.isNone_some, Bool.false_eq_true, if_false] at h1
                  simp [h2, h1]
          | traceStart t =>
              rw [h2, report_other_rootPid rec _ rec1 he (by intro p t h; cases h)]
              cases rec.rootPid <;> rfl
          | traceEnd =>
              rw [h2, report_other_rootPid rec _ rec1 he (by intro p t h; cases h)]
              cases rec.rootPid <;> rfl
          | tick t =>
              rw [h2, report_other_rootPid rec _ rec1 he (by intro p t h; cases h)]
              cases rec.rootPid <;> rfl
          | processExit p t =>
              rw [h2, report_other_rootPid rec _ rec1 he (by intro p t h; cases h)]
              cases rec.rootPid <;> rfl
          | processChild p c k =>
              rw [h2, report_other_rootPid rec _ rec1 he (by intro p t h; cases h)]
              cases rec.rootPid <;> rfl
          | processExec p t cwd path argv =>
              rw [h2, report_other_rootPid rec _ rec1 he (by intro p t h; cases h)]
              cases rec.rootPid <;> rfl

/-- **C7.** `Recorder.report` fails (panics) on a `ProcessStart` whose pid is
already present and on `ProcessExit`/`ProcessExec`/`ProcessChild` whose
primary pid is not in the process map (`reportPanics` characterises exactly
these shapes), while a `ProcessChild` whose child pid is not (yet) in the
map is accepted, merely appending `(kind, child)` to the parent's child
list — regardless of whether the child is in the map. -/
theorem c7_report_panic_characterization :
    (∀ rec e, Recording.report rec e = none ↔ reportPanics rec e) ∧
    (∀ rec parent child kind, mapHas rec.processes parent = true →
      ∃ rec', Recording.report rec (.processChild parent child kind) = some rec' ∧
        mapGet rec'.processes parent = (mapGet rec.processes parent).map
          (fun i => { i with children := i.children ++ [(kind, child)] }) ∧
        (∀ q, q ≠ parent → mapGet rec'.processes q = mapGet rec.processes q)) := by
  constructor
  · intro rec e
    cases e with
    | processStart p t =>
        simp only [Recording.report, mapInsertFirst, reportPanics]
        by_cases hh : mapHas rec.processes p = true <;> simp [hh]
    | traceStart t => simp [Recording.report, reportPanics]
    | traceEnd => simp [Recording.report, reportPanics]
    | tick t => simp [Recording.report, reportPanics]
    | processExit p t =>
        simp only [Recording.report, reportPanics]
        by_cases hh : mapHas rec.processes p = true <;> simp [hh]
    | processChild p c k =>
        simp only [Recording.report, reportPanics]
        by_cases hh : mapHas rec.processes p = true <;> simp [hh]
    | processExec p t cwd path argv =>
        simp only [Recording.report, reportPanics]
        by_cases hh : mapHas rec.processes p = true <;> simp [hh]
  · intro rec parent child kind hh
    refine ⟨{ rec with processes := (mapUpdate rec.processes parent (fun i => { i with children := i.children ++ [(kind, child)] })) }, ?_, ?_, ?_⟩
    · simp [Recording.report, hh]
    · simp [mapGet_mapUpdate]
    · intro q hq
      simp [mapGet_mapUpdate, hq]

/-- Witness for C7 on a concrete recording: a duplicate `ProcessStart`
panics, a `ProcessExit` for an unknown pid panics, and a `ProcessChild`
whose child pid (99) is unknown succeeds and appends the edge. -/
theorem c7_witness :
    (Recording.report
        { timeStart := none, running := true, rootPid := some 1,
          processes :=
            [(1, { pid := 1, time := { start := 0, tEnd := none },
                   execs := [], children := [] })] }
        (.processStart 1 2) = none) ∧
    (Recording.report
        { timeStart := none, running := true, rootPid := some 1,
          processes :=
            [(1, { pid := 1, time := { start := 0, tEnd := none },
                   execs := [], children := [] })] }
        (.processExit 7 2) = none) ∧
    (∃ rec', Recording.report
        { timeStart := none, running := true, rootPid := some 1,
          processes :=
            [(1, { pid := 1, time := { start := 0, tEnd := none },
                   execs := [], children := [] })] }
        (.processChild 1 99 .process) = some rec' ∧
      (mapGet rec'.processes 1).map (fun i => i.children) =
        some [(.process, 99)]) := by
  refine ⟨?_, ?_, ?_⟩
  · exact (c7_report_panic_characterization.1 _ _).mpr rfl
  · exact (c7_report_panic_characterization.1 _ _).mpr rfl
  · obtain ⟨rec', h1, h2, h3⟩ :=
      c7_report_panic_characterization.2
        { timeStart := none, running := true, rootPid := some 1,
          processes :=
            [(1, { pid := 1, time := { start := 0, tEnd := none },
                   execs := [], children := [] })] }
        1 99 .process rfl
    exact ⟨rec', h1, by rw [h2]; rfl⟩

/-- **C8.** Root election is monotonic: any successfully applied event leaves
an already-set `root_pid` unchanged; the first `ProcessStart` applied to a
fresh `Recording` sets `root_pid` to its pid; and over any successfully
applied stream from a fresh recording, `root_pid` ends up as the pid of the
stream's first `ProcessStart` event. -/
theorem c8_root_election_monotonic :
    (∀ rec e rec', Recording.report rec e = some rec' →
      rec.rootPid.isSome → rec'.rootPid = rec.rootPid) ∧
    (∀ pid t, ∃ rec',
      Recording.report Recording.new (.processStart pid t) = some rec' ∧
      rec'.rootPid = some pid) ∧
    (∀ evs rec', reportList Recording.new evs = some rec' →
      rec'.rootPid = firstStartPid evs) := by
  refine ⟨?_, ?_, ?_⟩
  · intro rec e rec' h hsome
    cases e with
    | processStart p t =>
        have h1 := report_processStart_rootPid rec p t rec' h
        rw [h1]
        cases hr : rec.rootPid with
        | none => rw [hr] at hsome; cases hsome
        | some r => simp
    | traceStart t => exact report_other_rootPid rec _ rec' h (by intro p t h'; cases h')
    | traceEnd => exact report_other_rootPid rec _ rec' h (by intro p t h'; cases h')
    | tick t => exact report_other_rootPid rec _ rec' h (by intro p t h'; cases h')
    | processExit p t => exact report_other_rootPid rec _ rec' h (by intro p t h'; cases h')
    | processChild p c k => exact report_other_rootPid rec _ rec' h (by intro p t h'; cases h')
    | processExec p t cwd path argv =>
        exact report_other_rootPid rec _ rec' h (by intro p t h'; cases h')
  · intro pid t
    exact ⟨_, rfl, rfl⟩
  · intro evs rec' h
    exact reportList_rootPid evs Recording.new rec' h

/-- Witness for C8: applying `ProcessStart 5`, a tick, `ProcessStart 6` and
an exit to a fresh recording elects and keeps root 5. -/
theorem c8_witness :
    ((Recording.report Recording.new (.processStart 5 0)).map
        (fun r => r.rootPid) = some (some 5)) ∧
    ((reportList Recording.new
        [.processStart 5 0, .tick 1, .processStart 6 2, .processExit 5 3]).map
        (fun r => r.rootPid) = some (some 5)) := by
  constructor
  · obtain ⟨rec', h1, h2⟩ := c8_root_election_monotonic.2.1 5 0
    rw [h1]
    simp [h2]
  · cases h : reportList Recording.new
        [.processStart 5 0, .tick 1, .processStart 6 2, .processExit 5 3] with
    | none => exact absurd h (by decide)
    | some r =>
        have := c8_root_election_monotonic.2.2 _ r h
        simp [this]
        rfl

/-! ### Tracer: loop invariants and claims C1, C6, C9 -/

theorem execFlagsSpec_append (l : List Int) (v : Int) :
    execFlagsSpec (l ++ [v]) = execFlagsStep (execFlagsSpec l) v := by
  simp [execFlagsSpec, List.foldl_append]

theorem filter_exec_append_exec (l : List TraceEvent) (pid : Pid) (t : Time)
    (path : String) (argv : List String) :
    (l ++ [TraceEvent.processExec pid t none path argv]).filter isExecEvent =
      l.filter isExecEvent ++ [TraceEvent.processExec pid t none path argv] := by
  simp [List.filter_append, isExecEvent]

theorem filterMap_execExits_append (ex : List (Pid × Time × ExecArgs × Int))
    (q : Pid × Time × ExecArgs × Int) :
    (ex ++ [q]).filterMap
        (fun q => if q.2.2.2 = 0 then some (execExitEvent q) else none) =
      ex.filterMap (fun q => if q.2.2.2 = 0 then some (execExitEvent q) else none)
        ++ (if q.2.2.2 = 0 then [execExitEvent q] else []) := by
  rw [List.filterMap_append]
  congr 1
  by_cases h : q.2.2.2 = 0 <;> simp [h]

theorem foldl_execFlagsStep_true (l : List Int) (e : Option Errno) :
    l.foldl execFlagsStep (true, e) = (true, e) := by
  induction l with
  | nil => rfl
  | cons v rest ih => simpa [execFlagsStep] using ih

theorem execFlagsSpec_go_all_neg (l : List Int) (e : Option Errno)
    (h : ∀ v ∈ l, v < 0) (hne : l ≠ []) :
    l.foldl execFlagsStep (false, e) = (false, (l.getLast?).map (fun v => -v)) := by
  induction l generalizing e with
  | nil => exact absurd rfl hne
  | cons v rest ih =>
      have hv : v < 0 := h v (by simp)
      cases rest with
      | nil => simp [execFlagsStep, hv]
      | cons w rest' =>
          have h2 := ih (some (-v)) (fun x hx => h x (by simp [hx])) (by simp)
          simp only [List.foldl_cons] at h2 ⊢
          rw [show execFlagsStep (false, e) v = (false, some (-v)) from by
            simp [execFlagsStep, hv]]
          rw [h2]
          simp [List.getLast?_cons_cons]

theorem execFlagsSpec_go_success (l : List Int) (e : Option Errno)
    (h0 : 0 ∈ l) (hle : ∀ v ∈ l, v ≤ 0) :
    (l.foldl execFlagsStep (false, e)).1 = true := by
  induction l generalizing e with
  | nil => cases h0
  | cons v rest ih =>
      by_cases hv : v < 0
      · have h0' : 0 ∈ rest := by
          cases h0 with
          | head => omega
          | tail _ h => exact h
        simpa [execFlagsStep, hv] using
          ih (some (-v)) h0' (fun x hx => hle x (by simp [hx]))
      · simp [execFlagsStep, hv, foldl_execFlagsStep_true]

theorem TracerInv_emit (st : TracerState) (e : TraceEvent) (h : TracerInv st)
    (he : isExecEvent e = false) :
    TracerInv { st with emitted := st.emitted ++ [e] } := by
  obtain ⟨h1, h2⟩ := h
  refine ⟨h1, ?_⟩
  simp only [List.filter_append, h2]
  simp [List.filter, he]

theorem TracerInv_pending (st : TracerState) (p : List (Pid × SyscallEntry))
    (h : TracerInv st) : TracerInv { st with pendingSyscalls := p } := h

theorem TracerInv_active (st : TracerState) (a : List Pid)
    (h : TracerInv st) : TracerInv { st with activeProcesses := a } := h

theorem execExitUpdate_spec (st : TracerState) (root pid : Pid)
    (args : ExecArgs) (sval : Int) (tnow : Time) :
    (execExitUpdate st root pid args sval tnow).pendingSyscalls = st.pendingSyscalls ∧
    (execExitUpdate st root pid args sval tnow).activeProcesses = st.activeProcesses ∧
    (execExitUpdate st root pid args sval tnow).emitted = st.emitted ∧
    (execExitUpdate st root pid args sval tnow).execExits =
      st.execExits ++ [(pid, tnow, args, sval)] ∧
    (execExitUpdate st root pid args sval tnow).rootExecSvals =
      (if pid = root then st.rootExecSvals ++ [sval] else st.rootExecSvals) ∧
    ((execExitUpdate st root pid args sval tnow).rootExecAnySuccess,
     (execExitUpdate st root pid args sval tnow).rootExecLastError) =
      (if pid = root
       then execFlagsStep (st.rootExecAnySuccess, st.rootExecLastError) sval
       else (st.rootExecAnySuccess, st.rootExecLastError)) := by
  by_cases hroot : pid = root
  · cases hany : st.rootExecAnySuccess
    · by_cases hneg : sval < 0 <;>
        simp [execExitUpdate, execFlagsStep, hroot, hany, hneg]
    · simp [execExitUpdate, execFlagsStep, hroot, hany]
  · simp [execExitUpdate, execFlagsStep, hroot]

theorem TracerInv_execExitUpdate (st : TracerState) (root pid : Pid)
    (args : ExecArgs) (sval : Int) (tnow : Time) (h : TracerInv st)
    (hsv : sval ≠ 0) :
    TracerInv (execExitUpdate st root pid args sval tnow) := by
  obtain ⟨hp, ha, he, hx, hs, hf⟩ := execExitUpdate_spec st root pid args sval tnow
  constructor
  · rw [hf, hs]
    by_cases hroot : pid = root
    · simp only [hroot, if_true, execFlagsSpec_append]
      rw [h.1]
    · simp only [hroot, if_false]
      exact h.1
  · rw [he, hx, filterMap_execExits_append]
    simp only [hsv, if_false]
    simpa using h.2

theorem TracerInv_execExitUpdate_emit (st : TracerState) (root pid : Pid)
    (args : ExecArgs) (tnow : Time) (h : TracerInv st) :
    TracerInv { execExitUpdate st root pid args 0 tnow with
      emitted := (execExitUpdate st root pid args 0 tnow).emitted ++
        [.processExec pid tnow none args.path args.argv] } := by
  obtain ⟨hp, ha, he, hx, hs, hf⟩ := execExitUpdate_spec st root pid args 0 tnow
  constructor
  · show ((execExitUpdate st root pid args 0 tnow).rootExecAnySuccess,
        (execExitUpdate st root pid args 0 tnow).rootExecLastError) =
      execFlagsSpec (execExitUpdate st root pid args 0 tnow).rootExecSvals
    rw [hf, hs]
    by_cases hroot : pid = root
    · simp only [hroot, if_true, execFlagsSpec_append]
      rw [h.1]
    · simp only [hroot, if_false]
      exact h.1
  · show ((execExitUpdate st root pid args 0 tnow).emitted ++
        [TraceEvent.processExec pid tnow none args.path args.argv]).filter isExecEvent =
      (execExitUpdate st root pid args 0 tnow).execExits.filterMap
        (fun q => if q.2.2.2 = 0 then some (execExitEvent q) else none)
    rw [he, hx, filterMap_execExits_append, filter_exec_append_exec, h.2]
    simp [execExitEvent]

theorem traceLoop_inv (cb : TraceCb) (root : Pid) (input : List TimedStatus) :
    ∀ st, TracerInv st → TracerInv (traceLoop cb root input st).state := by
  induction input with
  | nil => intro st h; exact h
  | cons ts rest ih =>
      intro st h
      simp only [traceLoop, emitEvent]
      have h1 : TracerInv { st with emitted := st.emitted ++ [.tick ts.time] } :=
        TracerInv_emit st _ h rfl
      by_cases hbrk : cb st.emitted (.tick ts.time) = true
      · simp only [hbrk, if_true]
        exact h1
      · simp only [hbrk, if_false, Bool.false_eq_true]
        set st1 : TracerState := { st with emitted := st.emitted ++ [.tick ts.time] }
        cases hstat : ts.status with
        | ptraceSyscall pid s =>
            cases hpr : pendingRemove st1.pendingSyscalls pid with
            | none =>
                simp only [hpr]
                exact ih _ (TracerInv_pending _ _ h1)
            | some pr =>
                obtain ⟨stored, pending'⟩ := pr
                simp only [hpr]
                cases stored with
                | ignore => exact ih _ (TracerInv_pending _ _ h1)
                | fork kind =>
                    by_cases hsv : 0 < s.sval
                    · simp only [hsv, if_true]
                      by_cases hbrk2 : cb ({ st1 with pendingSyscalls := pending' } :
                          TracerState).emitted (.processChild pid s.sval.toNat kind) = true
                      · simp only [emitEvent, hbrk2, if_true]
                        exact TracerInv_emit _ (.processChild pid s.sval.toNat kind)
                          (TracerInv_pending _ _ h1) rfl
                      · simp only [emitEvent, hbrk2, if_false, Bool.false_eq_true]
                        exact ih _ (TracerInv_emit _ (.processChild pid s.sval.toNat kind)
                          (TracerInv_pending _ _ h1) rfl)
                    · simp only [hsv, if_false]
                      exact ih _ (TracerInv_pending _ _ h1)
                | exec args =>
                    by_cases hz : s.sval = 0
                    · simp only [hz, if_true]
                      have h2 := TracerInv_execExitUpdate_emit
                        { st1 with pendingSyscalls := pending' } root pid args ts.time
                        (TracerInv_pending _ _ h1)
                      by_cases hbrk2 : cb (execExitUpdate
                          ({ st1 with pendingSyscalls := pending' } : TracerState)
                          root pid args 0 ts.time).emitted
                          (.processExec pid ts.time none args.path args.argv) = true
                      · simp only [emitEvent, hbrk2, if_true]
                        exact h2
                      · simp only [emitEvent, hbrk2, if_false, Bool.false_eq_true]
                        exact ih _ h2
                    · simp only [hz, if_false]
                      exact ih _ (TracerInv_execExitUpdate
                        { st1 with pendingSyscalls := pending' } root pid args s.sval
                        ts.time (TracerInv_pending _ _ h1) hz)
        | ptraceEvent pid => exact ih _ h1
        | exited pid =>
            by_cases hbrk2 : cb st1.emitted (.processExit pid ts.time) = true
            · simp only [emitEvent, hbrk2, if_true]
              exact TracerInv_emit st1 (.processExit pid ts.time) h1 rfl
            · simp only [emitEvent, hbrk2, if_false, Bool.false_eq_true]
              by_cases hp : pid = root
              · subst hp
                rw [if_pos rfl]
                exact TracerInv_pending _ _ (TracerInv_emit st1 (.processExit pid ts.time) h1 rfl)
              · rw [if_neg hp]
                exact ih _ (TracerInv_pending _ _ (TracerInv_emit st1 (.processExit pid ts.time) h1 rfl))
        | stopped pid sig =>
            dsimp only
            by_cases hcond : (sig = Sig.sigstop ∨ sig = Sig.sigtrap) ∧
                pid ∉ st.activeProcesses
            · rw [if_pos hcond]
              by_cases hbrk2 : cb st1.emitted (.processStart pid ts.time) = true
              · simp only [emitEvent, hbrk2, if_true]
                exact TracerInv_emit st1 (.processStart pid ts.time) h1 rfl
              · simp only [emitEvent, hbrk2, if_false, Bool.false_eq_true]
                exact ih _ (TracerInv_active _ _ (TracerInv_emit st1 (.processStart pid ts.time) h1 rfl))
            · rw [if_neg hcond]
              exact ih _ h1

theorem traceRun_inv (cb : TraceCb) (root : Pid) (input : List TimedStatus) :
    TracerInv (traceRun cb root input).state := by
  have h0 : TracerInv (initTracerState root) := ⟨rfl, rfl⟩
  have h1 : TracerInv { initTracerState root with
      emitted := (initTracerState root).emitted ++ [.processStart root 0] } :=
    TracerInv_emit _ _ h0 rfl
  unfold traceRun
  simp only [emitEvent]
  by_cases hbrk : cb (initTracerState root).emitted (.processStart root 0) = true
  · simp only [hbrk, if_true]
    exact h1
  · simp only [hbrk, if_false, Bool.false_eq_true]
    exact traceLoop_inv cb root input _ h1

theorem state_of_rootExited (cb : TraceCb) (root : Pid) (input : List TimedStatus)
    (st : TracerState) (h : traceRun cb root input = .rootExited st) :
    TracerInv st := by
  have := traceRun_inv cb root input
  rw [h] at this
  exact this

/-- **C1.** `record_trace` returns `SpawnFailed(errno)` iff the root task
exited without ever completing any exec successfully, with the errno of the
last failed root exec attempt; any one successful root exec yields `Ok`,
and a callback `Break` always yields `Ok` (success means a non-negative
return value; real exec syscalls return `0` or a negative errno, which the
`v ≤ 0` hypothesis expresses). -/
theorem c1_spawn_failed_iff :
    (∀ cb root input st, traceRun cb root input = .broke st →
      recordTrace cb root input = .ok st) ∧
    (∀ cb root input st, traceRun cb root input = .rootExited st →
      (∀ v ∈ st.rootExecSvals, v ≤ 0) →
      ((∃ e, recordTrace cb root input = .err e st) ↔
        (st.rootExecSvals ≠ [] ∧ 0 ∉ st.rootExecSvals)) ∧
      (∀ e, recordTrace cb root input = .err e st →
        st.rootExecSvals.getLast? = some (-e)) ∧
      (0 ∈ st.rootExecSvals → recordTrace cb root input = .ok st)) := by
  constructor
  · intro cb root input st h
    unfold recordTrace recordTraceImpl
    rw [h]
  · intro cb root input st hrun hwf
    have hflag := (state_of_rootExited cb root input st hrun).1
    have himpl : recordTraceImpl cb root input =
        (if st.rootExecAnySuccess then ImplRes.ok st
         else match st.rootExecLastError with
              | some e => ImplRes.spawnFailed e st
              | none => ImplRes.expectFail st) := by
      unfold recordTraceImpl
      rw [hrun]
    by_cases hnil : st.rootExecSvals = []
    · rw [hnil] at hflag
      have hany : st.rootExecAnySuccess = false := congrArg Prod.fst hflag
      have hle : st.rootExecLastError = none := congrArg Prod.snd hflag
      have hres : recordTrace cb root input = .expectFail st := by
        unfold recordTrace
        rw [himpl, hany, hle]
        rfl
      refine ⟨?_, ?_, ?_⟩
      · constructor
        · rintro ⟨e, he⟩
          rw [hres] at he
          cases he
        · rintro ⟨hne, _⟩
          exact absurd hnil hne
      · intro e he
        rw [hres] at he
        cases he
      · intro h0
        rw [hnil] at h0
        cases h0
    · by_cases h0 : 0 ∈ st.rootExecSvals
      · have hany : st.rootExecAnySuccess = true := by
          have hs := execFlagsSpec_go_success st.rootExecSvals none h0 hwf
          have hfst : st.rootExecAnySuccess = (execFlagsSpec st.rootExecSvals).1 :=
            congrArg Prod.fst hflag
          rw [hfst]
          exact hs
        have hres : recordTrace cb root input = .ok st := by
          unfold recordTrace
          rw [himpl, hany]
          rfl
        refine ⟨?_, ?_, ?_⟩
        · constructor
          · rintro ⟨e, he⟩
            rw [hres] at he
            cases he
          · rintro ⟨_, hnot⟩
            exact absurd h0 hnot
        · intro e he
          rw [hres] at he
          cases he
        · intro _
          exact hres
      · have hneg : ∀ v ∈ st.rootExecSvals, v < 0 := by
          intro v hv
          rcases lt_or_eq_of_le (hwf v hv) with h | h
          · exact h
          · exact absurd (h ▸ hv) h0
        have hspec := execFlagsSpec_go_all_neg st.rootExecSvals none hneg hnil
        obtain ⟨v, hv⟩ : ∃ v, st.rootExecSvals.getLast? = some v := by
          cases hl : st.rootExecSvals.getLast? with
          | none => exact absurd (List.getLast?_eq_none_iff.mp hl) hnil
          | some v => exact ⟨v, rfl⟩
        have hany : st.rootExecAnySuccess = false := by
          have hfst : st.rootExecAnySuccess = (execFlagsSpec st.rootExecSvals).1 :=
            congrArg Prod.fst hflag
          rw [hfst]
          show (execFlagsSpec st.rootExecSvals).1 = false
          unfold execFlagsSpec
          rw [hspec]
        have hle : st.rootExecLastError = some (-v) := by
          have hsnd : st.rootExecLastError = (execFlagsSpec st.rootExecSvals).2 :=
            congrArg Prod.snd hflag
          rw [hsnd]
          show (execFlagsSpec st.rootExecSvals).2 = some (-v)
          unfold execFlagsSpec
          rw [hspec]
          simp [hv]
        have hres : recordTrace cb root input = .err (-v) st := by
          unfold recordTrace
          rw [himpl, hany, hle]
          rfl
        refine ⟨?_, ?_, ?_⟩
        · exact ⟨fun _ => ⟨hnil, h0⟩, fun _ => ⟨-v, hres⟩⟩
        · intro e he
          rw [hres] at he
          cases he
          rw [hv]
          congr 1
          omega
        · intro hmem
          exact absurd hmem h0

/-- Witness for C1: a single failing root exec (`errno 2`) followed by the
root exit produces `SpawnFailed`; a stream whose callback breaks at once
yields `Ok`. -/
theorem c1_witness :
    (∃ e, recordTrace (fun _ _ => false) 7
      [ { time := 1, status := .ptraceSyscall 7
            { nr := .execve, argCloneFlags := 0, cloneArgsSize := 0,
              memCloneFlags := 0, execArgs := { path := "p", argv := [] },
              sval := 0 } },
        { time := 2, status := .ptraceSyscall 7
            { nr := .execve, argCloneFlags := 0, cloneArgsSize := 0,
              memCloneFlags := 0, execArgs := { path := "p", argv := [] },
              sval := -2 } },
        { time := 3, status := .exited 7 } ] =
      .err e ((traceRun (fun _ _ => false) 7
      [ { time := 1, status := .ptraceSyscall 7
            { nr := .execve, argCloneFlags := 0, cloneArgsSize := 0,
              memCloneFlags := 0, execArgs := { path := "p", argv := [] },
              sval := 0 } },
        { time := 2, status := .ptraceSyscall 7
            { nr := .execve, argCloneFlags := 0, cloneArgsSize := 0,
              memCloneFlags := 0, execArgs := { path := "p", argv := [] },
              sval := -2 } },
        { time := 3, status := .exited 7 } ]).state)) ∧
    recordTrace (fun _ _ => true) 7 [] =
      .ok ((traceRun (fun _ _ => true) 7 []).state) := by
  constructor
  · have h := c1_spawn_failed_iff.2 (fun _ _ => false) 7
      [ { time := 1, status := .ptraceSyscall 7
            { nr := .execve, argCloneFlags := 0, cloneArgsSize := 0,
              memCloneFlags := 0, execArgs := { path := "p", argv := [] },
              sval := 0 } },
        { time := 2, status := .ptraceSyscall 7
            { nr := .execve, argCloneFlags := 0, cloneArgsSize := 0,
              memCloneFlags := 0, execArgs := { path := "p", argv := [] },
              sval := -2 } },
        { time := 3, status := .exited 7 } ]
      ((traceRun (fun _ _ => false) 7
      [ { time := 1, status := .ptraceSyscall 7
            { nr := .execve, argCloneFlags := 0, cloneArgsSize := 0,
              memCloneFlags := 0, execArgs := { path := "p", argv := [] },
              sval := 0 } },
        { time := 2, status := .ptraceSyscall 7
            { nr := .execve, argCloneFlags := 0, cloneArgsSize := 0,
              memCloneFlags := 0, execArgs := { path := "p", argv := [] },
              sval := -2 } },
        { time := 3, status := .exited 7 } ]).state) rfl (by decide)
    exact h.1.mpr (by decide)
  · exact c1_spawn_failed_iff.1 (fun _ _ => true) 7 []
      ((traceRun (fun _ _ => true) 7 []).state) rfl

/-- **C9.** If the callback never breaks (the loop reaches the root's exit)
and the tracer observed no exec attempt on the root at all, `record_trace`
panics (the `.expect` on the missing last errno) instead of returning
`SpawnFailed` or `Ok`. -/
theorem c9_no_exec_attempt_panics (cb : TraceCb) (root : Pid)
    (input : List TimedStatus) (st : TracerState)
    (hrun : traceRun cb root input = .rootExited st)
    (hnone : st.rootExecSvals = []) :
    recordTrace cb root input = .expectFail st := by
  have hflag := (state_of_rootExited cb root input st hrun).1
  rw [hnone] at hflag
  have hany : st.rootExecAnySuccess = false := congrArg Prod.fst hflag
  have hle : st.rootExecLastError = none := congrArg Prod.snd hflag
  unfold recordTrace recordTraceImpl
  rw [hrun]
  dsimp only
  rw [hany, hle]
  rfl

/-- Witness for C9: the root exits immediately, with no syscall stop at all. -/
theorem c9_witness :
    recordTrace (fun _ _ => false) 7 [{ time := 1, status := .exited 7 }] =
      .expectFail ((traceRun (fun _ _ => false) 7
        [{ time := 1, status := .exited 7 }]).state) :=
  c9_no_exec_attempt_panics (fun _ _ => false) 7
    [{ time := 1, status := .exited 7 }]
    ((traceRun (fun _ _ => false) 7 [{ time := 1, status := .exited 7 }]).state)
    rfl rfl

/-- **C6.** A `ProcessExec(pid, time, path, argv, cwd=none)` event is
delivered exactly for the exec syscall exits with return value `0`, carrying
the path and argv extracted at the syscall entry (first conjunct: the
delivered `ProcessExec` events are precisely the successful entries of the
ghost exec-exit log, for every run).  Second conjunct: in the shell-style
scenario with a failing then a succeeding exec on the root, only the
successful `ProcessExec` is emitted and the tracer returns `Ok`. -/
theorem c6_exec_emission :
    (∀ cb root input,
      ((traceRun cb root input).state).emitted.filter isExecEvent =
        ((traceRun cb root input).state).execExits.filterMap
          (fun q => if q.2.2.2 = 0 then some (execExitEvent q) else none)) ∧
    (recordTrace (fun _ _ => false) 7
      [ { time := 1, status := .ptraceSyscall 7
            { nr := .execve, argCloneFlags := 0, cloneArgsSize := 0,
              memCloneFlags := 0, execArgs := { path := "pathA", argv := ["a"] },
              sval := 5 } },
        { time := 2, status := .ptraceSyscall 7
            { nr := .execve, argCloneFlags := 0, cloneArgsSize := 0,
              memCloneFlags := 0, execArgs := { path := "ignored", argv := [] },
              sval := -2 } },
        { time := 3, status := .ptraceSyscall 7
            { nr := .execve, argCloneFlags := 0, cloneArgsSize := 0,
              memCloneFlags := 0, execArgs := { path := "pathB", argv := ["b"] },
              sval := 5 } },
        { time := 4, status := .ptraceSyscall 7
            { nr := .execve, argCloneFlags := 0, cloneArgsSize := 0,
              memCloneFlags := 0, execArgs := { path := "ignored", argv := [] },
              sval := 0 } },
        { time := 5, status := .exited 7 } ] =
      .ok ((traceRun (fun _ _ => false) 7
      [ { time := 1, status := .ptraceSyscall 7
            { nr := .execve, argCloneFlags := 0, cloneArgsSize := 0,
              memCloneFlags := 0, execArgs := { path := "pathA", argv := ["a"] },
              sval := 5 } },
        { time := 2, status := .ptraceSyscall 7
            { nr := .execve, argCloneFlags := 0, cloneArgsSize := 0,
              memCloneFlags := 0, execArgs := { path := "ignored", argv := [] },
              sval := -2 } },
        { time := 3, status := .ptraceSyscall 7
            { nr := .execve, argCloneFlags := 0, cloneArgsSize := 0,
              memCloneFlags := 0, execArgs := { path := "pathB", argv := ["b"] },
              sval := 5 } },
        { time := 4, status := .ptraceSyscall 7
            { nr := .execve, argCloneFlags := 0, cloneArgsSize := 0,
              memCloneFlags := 0, execArgs := { path := "ignored", argv := [] },
              sval := 0 } },
        { time := 5, status := .exited 7 } ]).state) ∧
     ((traceRun (fun _ _ => false) 7
      [ { time := 1, status := .ptraceSyscall 7
            { nr := .execve, argCloneFlags := 0, cloneArgsSize := 0,
              memCloneFlags := 0, execArgs := { path := "pathA", argv := ["a"] },
              sval := 5 } },
        { time := 2, status := .ptraceSyscall 7
            { nr := .execve, argCloneFlags := 0, cloneArgsSize := 0,
              memCloneFlags := 0, execArgs := { path := "ignored", argv := [] },
              sval := -2 } },
        { time := 3, status := .ptraceSyscall 7
            { nr := .execve, argCloneFlags := 0, cloneArgsSize := 0,
              memCloneFlags := 0, execArgs := { path := "pathB", argv := ["b"] },
              sval := 5 } },
        { time := 4, status := .ptraceSyscall 7
            { nr := .execve, argCloneFlags := 0, cloneArgsSize := 0,
              memCloneFlags := 0, execArgs := { path := "ignored", argv := [] },
              sval := 0 } },
        { time := 5, status := .exited 7 } ]).state).emitted.filter isExecEvent =
      [.processExec 7 4 none "pathB" ["b"]]) := by
  refine ⟨fun cb root input => (traceRun_inv cb root input).2, ?_, ?_⟩
  · rfl
  · rfl

/-! ### Layout: inversion lemmas -/

theorem placeProcess_ok_none (rec : Recording) (incT : Bool) (fuel : Nat)
    (pid : Pid) (depth : Nat)
    (h : placeProcess rec incT (fuel + 1) pid depth = .ok none) :
    mapGet rec.processes pid = none := by
  simp only [placeProcess] at h
  split at h
  · assumption
  · split at h
    · cases h
    · split at h
      · cases h
      · split at h
        · cases h
        · split at h
          · cases h
          · cases h

theorem mapGet_none_placeProcess (rec : Recording) (incT : Bool) (fuel : Nat)
    (pid : Pid) (depth : Nat) (hg : mapGet rec.processes pid = none) :
    placeProcess rec incT (fuel + 1) pid depth = .ok none := by
  simp [placeProcess, hg]

theorem placeProcess_ok_some (rec : Recording) (incT : Bool) (fuel : Nat)
    (pid : Pid) (depth : Nat) (t : PlacedProcess)
    (h : placeProcess rec incT (fuel + 1) pid depth = .ok (some t)) :
    ∃ info children tte st tb,
      mapGet rec.processes pid = some info ∧
      (if incT then Except.ok (info.children.map (fun kc => kc.2))
       else flattenChildren rec (fuel + 1) pid) = .ok children ∧
      buildEvents (fun c => processTimeBound rec (fuel + 1) c) children [] = .ok tte ∧
      sweepGo (fun c => placeProcess rec incT fuel c (depth + 1))
        ((sortEvents tte).map (fun kv => kv.2))
        { free := [], active := [], placed := [], maxDepth := depth } = .ok st ∧
      processTimeBound rec (fuel + 1) pid = .ok tb ∧
      t = { pid := pid, depth := depth, rowOffset := 0,
            rowHeight := 1 + st.free.length, children := st.placed,
            maxDepth := st.maxDepth, timeBound := tb } := by
  simp only [placeProcess] at h
  split at h
  · cases h
  · next info hinfo =>
    split at h
    · next e h1 => cases h
    · next children h1 =>
      split at h
      · cases h
      · next tte h2 =>
        split at h
        · cases h
        · next st h3 =>
          split at h
          · cases h
          · next tb h4 =>
            injection h with h
            injection h with h
            exact ⟨info, children, tte, st, tb, hinfo, h1, h2, h3, h4, h.symm⟩

/-- **C10.** `place_processes` yields no tree (a clean `None`, not an error)
exactly when the root pid is unset or absent from the process map; a fresh
recording yields `None`; and a missing non-root child pid merely contributes
no placed child (concrete conjunct: root 1 has a child edge to the absent
pid 99 and is still placed, with no children). -/
theorem c10_place_processes_none_iff :
    (∀ rec incT fuel, 0 < fuel →
      (placeProcesses rec incT fuel = .ok none ↔
        (match rec.rootPid with
         | none => True
         | some r => mapGet rec.processes r = none))) ∧
    (∀ incT fuel, 0 < fuel → placeProcesses Recording.new incT fuel = .ok none) ∧
    (∃ t, placeProcesses
        { timeStart := none, running := true, rootPid := some 1,
          processes :=
            [(1, { pid := 1, time := { start := 0, tEnd := some 4 },
                   execs := [], children := [(.process, 99)] })] }
        false 5 = .ok (some t) ∧ t.children = []) := by
  have hmain : ∀ rec incT fuel, 0 < fuel →
      (placeProcesses rec incT fuel = .ok none ↔
        (match rec.rootPid with
         | none => True
         | some r => mapGet rec.processes r = none)) := by
    intro rec incT fuel hf
    obtain ⟨f, rfl⟩ : ∃ f, fuel = f + 1 := ⟨fuel - 1, by omega⟩
    cases hr : rec.rootPid with
    | none => simp [placeProcesses, hr]
    | some r =>
        simp only [placeProcesses, hr]
        constructor
        · intro h
          exact placeProcess_ok_none rec incT f r 0 h
        · intro h
          exact mapGet_none_placeProcess rec incT f r 0 h
  refine ⟨hmain, ?_, ?_⟩
  · intro incT fuel hf
    exact (hmain Recording.new incT fuel hf).mpr trivial
  · exact ⟨_, rfl, rfl⟩

/-- Witness for C10 (the first two conjuncts carry `0 < fuel` hypotheses):
instantiated on a fresh recording and on a recording whose root is absent. -/
theorem c10_witness :
    placeProcesses Recording.new false 3 = .ok none ∧
    placeProcesses
      { timeStart := none, running := true, rootPid := some 8, processes := [] }
      true 3 = .ok none := by
  constructor
  · exact c10_place_processes_none_iff.2.1 false 3 (by decide)
  · exact (c10_place_processes_none_iff.1
      { timeStart := none, running := true, rootPid := some 8, processes := [] }
      true 3 (by decide)).mpr rfl

/-- **C5.** Ends are processed before starts at each sweep tick, so a row
freed at `t` is reusable by a child starting at the same `t`.  Concrete: P
(pid 1) spawns height-1 children A (pid 2, bound `[1, 2]`) and B (pid 3,
bound `[3, 4]`); both get `row_offset = 1` and P gets `row_height = 2`.
The second conjunct makes B start exactly at A's end (`[1, 3]` and
`[3, 4]`): the row freed at `t = 3` is reused at `t = 3`. -/
theorem c5_row_reuse_after_sibling_exit :
    (((placeProcesses
        { timeStart := none, running := true, rootPid := some 1,
          processes :=
            [ (1, { pid := 1, time := { start := 0, tEnd := some 10 },
                    execs := [], children := [(.process, 2), (.process, 3)] }),
              (2, { pid := 2, time := { start := 1, tEnd := some 2 },
                    execs := [], children := [] }),
              (3, { pid := 3, time := { start := 3, tEnd := some 4 },
                    execs := [], children := [] }) ] }
        false 10).toOption.bind id).map
      (fun t => (t.rowHeight,
        t.children.map (fun c => (c.pid, c.rowOffset, c.rowHeight)))) =
      some (2, [(2, 1, 1), (3, 1, 1)])) ∧
    (((placeProcesses
        { timeStart := none, running := true, rootPid := some 1,
          processes :=
            [ (1, { pid := 1, time := { start := 0, tEnd := some 10 },
                    execs := [], children := [(.process, 2), (.process, 3)] }),
              (2, { pid := 2, time := { start := 1, tEnd := some 3 },
                    execs := [], children := [] }),
              (3, { pid := 3, time := { start := 3, tEnd := some 4 },
                    execs := [], children := [] }) ] }
        false 10).toOption.bind id).map
      (fun t => (t.rowHeight,
        t.children.map (fun c => (c.pid, c.rowOffset, c.rowHeight)))) =
      some (2, [(2, 1, 1), (3, 1, 1)])) := by
  exact ⟨rfl, rfl⟩

/-! ### Layout: time-bound characterization (claim C3) -/

theorem tbChildren_ok (recurse : Pid → Except LErr (FTime × FTime)) :
    ∀ (l : List (ProcessKind × Pid)) (acc res : FTime × FTime),
      tbChildren recurse l acc = .ok res →
      ∃ cbs : List (FTime × FTime),
        List.Forall₂ (fun kc cb => recurse kc.2 = .ok cb) l cbs ∧
        res = ((cbs.map Prod.fst).foldl min acc.1,
               (cbs.map Prod.snd).foldl max acc.2) := by
  intro l
  induction l with
  | nil =>
      intro acc res h
      simp only [tbChildren] at h
      injection h with h
      exact ⟨[], List.Forall₂.nil, by simp [h.symm]⟩
  | cons kc rest ih =>
      intro acc res h
      simp only [tbChildren] at h
      cases hc : recurse kc.2 with
      | error e => rw [hc] at h; cases h
      | ok cb =>
          rw [hc] at h
          obtain ⟨cbs, hall, hres⟩ := ih _ res h
          exact ⟨cb :: cbs, List.Forall₂.cons hc hall, by simpa using hres⟩

theorem pairFold_spec (l : List Time) (acc : FTime × FTime) :
    l.foldl (fun a t => (min a.1 (FTime.fin t), max a.2 (FTime.fin t))) acc =
      ((l.map FTime.fin).foldl min acc.1, (l.map FTime.fin).foldl max acc.2) := by
  induction l generalizing acc with
  | nil => rfl
  | cons t rest ih => simp [ih]

/-- Counterexample to C3 as stated: the computed time bound has no optional
end at all.  A single task with `time.start = 0`, **unknown** `time.end`, no
execs and no children gets the concrete bound `(0, 0)` — its end is the
finite known time `0`, not an unknown marker (the sentinels `ftBot`/`ftTop`,
the only non-finite values of the bound type, do not appear either). -/
theorem c3_counterexample :
    processTimeBound
      { timeStart := none, running := true, rootPid := some 1,
        processes := [(1, { pid := 1, time := { start := 0, tEnd := none },
                            execs := [], children := [] })] } 1 1 =
      .ok (FTime.fin 0, FTime.fin 0) ∧
    FTime.fin 0 ≠ ftBot ∧ FTime.fin 0 ≠ ftTop := by
  refine ⟨rfl, by decide, by decide⟩

/-- **C3 (amended).** For a task present in the map, the computed bound's
start is the `min`-fold of its children's bound starts and its own observed
times (`time.start`, `time.end` when set, each exec time), starting from the
`f32::MAX` sentinel; its end is the `max`-fold of the children's bound ends
and the same own observed times, starting from `f32::MIN`.  An unknown
`time.end` simply contributes nothing; the bound's end is always this
concrete value, never an "unknown" marker. -/
theorem c3_time_bound_formula (rec : Recording) (fuel : Nat) (pid : Pid)
    (info : ProcessInfo) (b : FTime × FTime)
    (hinfo : mapGet rec.processes pid = some info)
    (hb : processTimeBound rec (fuel + 1) pid = .ok b) :
    ∃ cbs : List (FTime × FTime),
      List.Forall₂ (fun kc cb => processTimeBound rec fuel kc.2 = .ok cb)
        info.children cbs ∧
      b.1 = (cbs.map Prod.fst ++ (processTimes info).map FTime.fin).foldl min ftTop ∧
      b.2 = (cbs.map Prod.snd ++ (processTimes info).map FTime.fin).foldl max ftBot := by
  simp only [processTimeBound, hinfo] at hb
  cases hacc : tbChildren (fun c => processTimeBound rec fuel c)
      info.children (ftTop, ftBot) with
  | error e => rw [hacc] at hb; cases hb
  | ok acc =>
      rw [hacc] at hb
      injection hb with hb
      obtain ⟨cbs, hall, hres⟩ := tbChildren_ok _ _ _ _ hacc
      refine ⟨cbs, hall, ?_, ?_⟩
      · rw [← hb]
        unfold ownTimesFold
        rw [pairFold_spec, hres]
        simp [List.foldl_append]
      · rw [← hb]
        unfold ownTimesFold
        rw [pairFold_spec, hres]
        simp [List.foldl_append]

/-- Witness for the amended C3 on the concrete parent of the C5 scenario:
its bound is `(0, 10)`, the fold of the children's bounds `(1,2)`, `(3,4)`
and its own times `0`, `10`. -/
theorem c3_witness :
    ∃ cbs : List (FTime × FTime),
      List.Forall₂
        (fun (kc : ProcessKind × Pid) cb =>
          processTimeBound
            { timeStart := none, running := true, rootPid := some 1,
              processes :=
                [ (1, { pid := 1, time := { start := 0, tEnd := some 10 },
                        execs := [], children := [(.process, 2), (.process, 3)] }),
                  (2, { pid := 2, time := { start := 1, tEnd := some 2 },
                        execs := [], children := [] }),
                  (3, { pid := 3, time := { start := 3, tEnd := some 4 },
                        execs := [], children := [] }) ] } 5 kc.2 = .ok cb)
        [(.process, 2), (.process, 3)] cbs ∧
      FTime.fin 0 = (cbs.map Prod.fst ++
        [FTime.fin 0, FTime.fin 10]).foldl min ftTop ∧
      FTime.fin 10 = (cbs.map Prod.snd ++
        [FTime.fin 0, FTime.fin 10]).foldl max ftBot := by
  have h := c3_time_bound_formula
    { timeStart := none, running := true, rootPid := some 1,
      processes :=
        [ (1, { pid := 1, time := { start := 0, tEnd := some 10 },
                execs := [], children := [(.process, 2), (.process, 3)] }),
          (2, { pid := 2, time := { start := 1, tEnd := some 2 },
                execs := [], children := [] }),
          (3, { pid := 3, time := { start := 3, tEnd := some 4 },
                execs := [], children := [] }) ] }
    5 1
    { pid := 1, time := { start := 0, tEnd := some 10 },
      execs := [], children := [(.process, 2), (.process, 3)] }
    (FTime.fin 0, FTime.fin 10) rfl rfl
  exact h

/-! ### Layout: free-row mask lemmas -/

theorem rangesDisjoint_symm {a b : Nat × Nat} (h : rangesDisjoint a b) :
    rangesDisjoint b a := by
  intro j hj
  exact h j ⟨hj.2.2.1, hj.2.2.2, hj.1, hj.2.1⟩

theorem maskGet_oob (l : List Bool) (i : Nat) (h : l.length ≤ i) :
    maskGet l i = false := by
  simp [maskGet, List.getD_eq_getElem?_getD, List.getElem?_eq_none h]

theorem maskGet_append (l m : List Bool) (i : Nat) :
    maskGet (l ++ m) i = if i < l.length then maskGet l i else maskGet m (i - l.length) := by
  by_cases h : i < l.length
  · simp [maskGet, List.getD_eq_getElem?_getD, List.getElem?_append_left h, h]
  · push_neg at h
    simp [maskGet, List.getD_eq_getElem?_getD, List.getElem?_append_right h,
      Nat.not_lt.mpr h]

theorem maskGet_set (l : List Bool) (i j : Nat) (v : Bool) :
    maskGet (l.set i v) j =
      if j = i ∧ i < l.length then v else maskGet l j := by
  by_cases hij : j = i
  · subst hij
    by_cases hlen : j < l.length
    · simp [maskGet, List.getD_eq_getElem?_getD, List.getElem?_set_eq hlen, hlen]
    · push_neg at hlen
      simp [maskGet, List.set_eq_of_length_le hlen, Nat.not_lt.mpr hlen]
  · simp [maskGet, List.getD_eq_getElem?_getD, List.getElem?_set_ne (Ne.symm hij), hij]

theorem setFalseRun_length : ∀ (m : List Bool) (lo n : Nat),
    (setFalseRun m lo n).length = m.length := by
  intro m lo n
  induction n generalizing m lo with
  | zero => rfl
  | succ n ih => simp [setFalseRun, ih]

theorem maskGet_setFalseRun : ∀ (m : List Bool) (lo n j : Nat),
    maskGet (setFalseRun m lo n) j =
      if lo ≤ j ∧ j < lo + n ∧ j < m.length then false else maskGet m j := by
  intro m lo n
  induction n generalizing m lo with
  | zero =>
      intro j
      simp only [setFalseRun]
      split
      · omega
      · rfl
  | succ n ih =>
      intro j
      simp only [setFalseRun]
      rw [ih, maskGet_set]
      simp only [List.length_set]
      by_cases h1 : lo + 1 ≤ j ∧ j < lo + 1 + n ∧ j < m.length
      · rw [if_pos h1, if_pos (by omega)]
      · rw [if_neg h1]
        by_cases h2 : j = lo ∧ lo < m.length
        · rw [if_pos h2, if_pos (by omega)]
        · rw [if_neg h2, if_neg (by omega)]

theorem maskFits_free (m : List Bool) (s len : Nat)
    (h : maskFits m s len = true) :
    ∀ j, s ≤ j → j < s + len → j < m.length → maskGet m j = true := by
  intro j h1 h2 h3
  have hmem : j ∈ List.range' s (min (s + len) m.length - s) := by
    rw [List.mem_range']
    refine ⟨j - s, by omega, by omega⟩
  exact List.all_eq_true.mp h _ hmem

theorem findStart_le (m : List Bool) (len : Nat) : findStart m len ≤ m.length := by
  unfold findStart
  cases hf : (List.range m.length).find? (fun s => maskFits m s len) with
  | none => exact le_refl _
  | some s => exact le_of_lt (List.mem_range.mp (List.mem_of_find?_eq_some hf))

theorem findStart_fits (m : List Bool) (len : Nat)
    (h : findStart m len < m.length) :
    maskFits m (findStart m len) len = true := by
  unfold findStart at h ⊢
  cases hf : (List.range m.length).find? (fun s => maskFits m s len) with
  | none =>
      rw [hf] at h
      simp at h
  | some s =>
      have hp := List.find?_some hf
      exact hp

theorem freeAllocate_spec (m : List Bool) (len : Nat) (s : Nat) (m2 : List Bool)
    (heq : freeAllocate m len = (s, m2)) :
    s ≤ m.length ∧
    m2.length = max m.length (s + len) ∧
    (∀ j, j < s ∨ s + len ≤ j → maskGet m2 j = maskGet m j) ∧
    (∀ j, s ≤ j → j < s + len → maskGet m2 j = false) ∧
    (∀ j, s ≤ j → j < s + len → j < m.length → maskGet m j = true) := by
  have hs0 : s = findStart m len := by
    have : (freeAllocate m len).1 = s := by rw [heq]
    rw [← this]
    rfl
  have hm2 : m2 = setFalseRun (m ++ List.replicate (s + len - m.length) true) s len := by
    have : (freeAllocate m len).2 = m2 := by rw [heq]
    rw [← this, hs0]
    rfl
  subst hs0
  have hs : findStart m len ≤ m.length := findStart_le m len
  set s := findStart m len with hsdef
  have hext : ∀ j, maskGet (m ++ List.replicate (s + len - m.length) true) j =
      if j < m.length then maskGet m j
      else if j < s + len then true else false := by
    intro j
    rw [maskGet_append]
    by_cases h1 : j < m.length
    · rw [if_pos h1, if_pos h1]
    · rw [if_neg h1, if_neg h1]
      by_cases h2 : j < s + len
      · rw [if_pos h2]
        simp only [maskGet, List.getD_eq_getElem?_getD]
        rw [List.getElem?_replicate]
        rw [if_pos (by omega)]
        rfl
      · rw [if_neg h2]
        apply maskGet_oob
        simp only [List.length_replicate]
        omega
  have hlen1 : (m ++ List.replicate (s + len - m.length) true).length =
      max m.length (s + len) := by
    simp only [List.length_append, List.length_replicate]
    omega
  refine ⟨hs, ?_, ?_, ?_, ?_⟩
  · rw [hm2, setFalseRun_length, hlen1]
  · intro j hj
    rw [hm2, maskGet_setFalseRun]
    rw [if_neg (by omega)]
    rw [hext]
    by_cases h1 : j < m.length
    · rw [if_pos h1]
    · rw [if_neg h1, if_neg (by omega)]
      rw [maskGet_oob m j (by omega)]
  · intro j h1 h2
    rw [hm2, maskGet_setFalseRun]
    rw [if_pos ⟨h1, h2, by rw [hlen1]; omega⟩]
  · intro j h1 h2 h3
    have hlt : s < m.length := by omega
    have hfit := findStart_fits m len hlt
    exact maskFits_free m s len hfit j h1 h2 h3

theorem freeRelease_spec : ∀ (n : Nat) (m : List Bool) (lo : Nat) (m' : List Bool),
    freeRelease m lo n = .ok m' →
    m'.length = m.length ∧
    (∀ j, j < lo ∨ lo + n ≤ j → maskGet m' j = maskGet m j) := by
  intro n
  induction n with
  | zero =>
      intro m lo m' h
      simp only [freeRelease] at h
      injection h with h
      subst h
      exact ⟨rfl, fun j _ => rfl⟩
  | succ n ih =>
      intro m lo m' h
      simp only [freeRelease] at h
      cases hg : m.get? lo with
      | none => rw [hg] at h; cases h
      | some b =>
          rw [hg] at h
          cases b with
          | true => cases h
          | false =>
              obtain ⟨hlen, houts⟩ := ih (m.set lo true) (lo + 1) m' h
              rw [List.length_set] at hlen
              refine ⟨hlen, ?_⟩
              intro j hj
              rw [houts j (by omega), maskGet_set]
              rw [if_neg (by omega)]

/-! ### Layout: children_active lemmas -/

theorem activeLookup_mem : ∀ (l : List (Pid × (Nat × Nat))) (p : Pid) (r : Nat × Nat),
    activeLookup l p = some r → (p, r) ∈ l := by
  intro l
  induction l with
  | nil => intro p r h; cases h
  | cons e rest ih =>
      intro p r h
      simp only [activeLookup] at h
      split at h
      · next he =>
          injection h with h
          subst h
          subst he
          exact List.mem_cons_self _ _
      · exact List.mem_cons_of_mem _ (ih p r h)

theorem activeLookup_none_iff : ∀ (l : List (Pid × (Nat × Nat))) (p : Pid),
    activeLookup l p = none ↔ ∀ e ∈ l, e.1 ≠ p := by
  intro l
  induction l with
  | nil => intro p; simp [activeLookup]
  | cons e rest ih =>
      intro p
      simp only [activeLookup]
      split
      · next he => simp [he]
      · next he =>
          rw [ih]
          constructor
          · intro h x hx
            cases hx with
            | head => exact he
            | tail _ hx => exact h x hx
          · intro h x hx
            exact h x (List.mem_cons_of_mem _ hx)

theorem activeRemove_none_iff : ∀ (l : List (Pid × (Nat × Nat))) (p : Pid),
    activeRemove l p = none ↔ activeLookup l p = none := by
  intro l
  induction l with
  | nil => intro p; simp [activeRemove, activeLookup]
  | cons e rest ih =>
      intro p
      simp only [activeRemove, activeLookup]
      split
      · simp
      · rw [← ih]
        cases h : activeRemove rest p with
        | none => simp
        | some pr => simp

theorem activeRemove_some_spec : ∀ (l : List (Pid × (Nat × Nat))) (p : Pid)
    (r : Nat × Nat) (l' : List (Pid × (Nat × Nat))),
    activeRemove l p = some (r, l') →
    activeLookup l p = some r ∧
    List.Sublist l' l ∧
    (∀ q, q ≠ p → activeLookup l' q = activeLookup l q) ∧
    (∃ l1 l2, l = l1 ++ (p, r) :: l2 ∧ l' = l1 ++ l2) := by
  intro l
  induction l with
  | nil => intro p r l' h; cases h
  | cons e rest ih =>
      intro p r l' h
      simp only [activeRemove] at h
      split at h
      · next he =>
          injection h with h
          injection h with h1 h2
          subst h1
          subst h2
          refine ⟨by simp [activeLookup, he], List.sublist_cons_self _ _, ?_,
            [], rest, ?_, rfl⟩
          · intro q hq
            simp only [activeLookup]
            rw [if_neg (by rw [he]; exact fun hh => hq hh.symm)]
          · rw [← he]
            rfl
      · next he =>
          cases hrec : activeRemove rest p with
          | none => rw [hrec] at h; cases h
          | some pr =>
              rw [hrec] at h
              injection h with h
              injection h with hr hrest
              obtain ⟨ha, hb, hc, l1, l2, hd, he2⟩ := ih p pr.1 pr.2 (by rw [hrec])
              subst hr
              subst hrest
              refine ⟨?_, List.Sublist.cons₂ _ hb, ?_, e :: l1, l2, ?_, ?_⟩
              · simp only [activeLookup]
                rw [if_neg he]
                exact ha
              · intro q hq
                simp only [activeLookup]
                split
                · rfl
                · exact hc q hq
              · rw [List.cons_append, ← hd]
              · rw [List.cons_append, ← he2]

theorem activeLookup_append : ∀ (l : List (Pid × (Nat × Nat))) (c q : Pid)
    (r : Nat × Nat),
    activeLookup (l ++ [(c, r)]) q =
      match activeLookup l q with
      | some x => some x
      | none => if c = q then some r else none := by
  intro l
  induction l with
  | nil => intro c q r; simp [activeLookup]
  | cons e rest ih =>
      intro c q r
      simp only [List.cons_append, activeLookup]
      split
      · rfl
      · exact ih c q r

theorem cellsOccupied_transport {m m' : List Bool} {r : Nat × Nat}
    (h : cellsOccupied m r)
    (hlen : m.length ≤ m'.length)
    (hsame : ∀ j, r.1 ≤ j → j < r.2 → maskGet m' j = maskGet m j) :
    cellsOccupied m' r := by
  refine ⟨le_trans h.1 hlen, ?_⟩
  intro j h1 h2
  rw [hsame j h1 h2]
  exact h.2 j h1 h2

/-! ### Layout: end-phase and start-phase invariants -/

theorem endsGo_spec (B : Pid → FTime × FTime) (k : FTime) :
    ∀ (E : List Pid) (st st' : SweepState),
      endsGo E st = .ok st' →
      (∀ c ∈ E, (B c).2 = k) →
      SweepOk B (fun x => x ≤ k) (fun x => x < k) st →
      (SweepOk B (fun x => x ≤ k) (fun x => x < k) st' ∧
       st'.placed = st.placed ∧
       (∀ q, activeLookup st'.active q = none →
          activeLookup st.active q = none ∨ q ∈ E)) := by
  intro E
  induction E with
  | nil =>
      intro st st' h hE hok
      simp only [endsGo] at h
      injection h with h
      subst h
      exact ⟨hok, rfl, fun q hq => Or.inl hq⟩
  | cons c cs ih =>
      intro st st' h hE hok
      simp only [endsGo] at h
      cases hrem : activeRemove st.active c with
      | none =>
          rw [hrem] at h
          obtain ⟨hok', hpl, hlk⟩ := ih st st' h (fun x hx => hE x (by simp [hx])) hok
          refine ⟨hok', hpl, ?_⟩
          intro q hq
          rcases hlk q hq with h1 | h1
          · exact Or.inl h1
          · exact Or.inr (by simp [h1])
      | some pr =>
          obtain ⟨r, active'⟩ := pr
          simp only [hrem] at h
          split at h
          · cases h
          · next free' hrel =>
              obtain ⟨hlook, hsub, hlkq, l1, l2, hdec, hdec2⟩ :=
                activeRemove_some_spec _ _ _ _ hrem
              obtain ⟨⟨hocc, hpair⟩, hpairs, hfacts⟩ := hok
              have hmem : (c, r) ∈ st.active := activeLookup_mem _ _ _ hlook
              obtain ⟨hlen, houts⟩ := freeRelease_spec _ _ _ _ hrel
              -- the released range is disjoint from every other active range
              have hpair' := hdec ▸ hpair
              have hL1 : ∀ e ∈ l1, e.1 ≠ c ∧ rangesDisjoint e.2 r := by
                intro e he
                have := (List.pairwise_append.mp hpair').2.2 e he (c, r)
                  (List.mem_cons_self _ _)
                exact this
              have hL2 : ∀ e ∈ l2, c ≠ e.1 ∧ rangesDisjoint r e.2 := by
                intro e he
                have h2 := (List.pairwise_append.mp hpair').2.1
                rw [List.pairwise_cons] at h2
                exact h2.1 e he
              have hdisj : ∀ e ∈ active', rangesDisjoint e.2 r := by
                intro e he
                rw [hdec2] at he
                rcases List.mem_append.mp he with h1 | h1
                · exact (hL1 e h1).2
                · exact rangesDisjoint_symm ((hL2 e h1).2)
              have hne : ∀ e ∈ active', e.1 ≠ c := by
                intro e he
                rw [hdec2] at he
                rcases List.mem_append.mp he with h1 | h1
                · exact (hL1 e h1).1
                · exact fun hh => (hL2 e h1).1 hh.symm
              have hlookc : activeLookup active' c = none :=
                (activeLookup_none_iff _ _).mpr hne
              -- the new state satisfies the invariant
              have hok1 : SweepOk B (fun x => x ≤ k) (fun x => x < k)
                  { free := free', active := active', placed := st.placed,
                    maxDepth := st.maxDepth } := by
                refine ⟨⟨?_, List.Pairwise.sublist hsub hpair⟩, hpairs, ?_⟩
                · intro e he
                  have hoc := hocc e (hsub.mem he)
                  refine cellsOccupied_transport hoc (le_of_eq hlen.symm) ?_
                  intro j hj1 hj2
                  apply houts
                  have := hdisj e he j
                  omega
                · intro p hp
                  obtain ⟨hro, htb, hsome, hnone, hstart⟩ := hfacts p hp
                  by_cases hpc : p.pid = c
                  · refine ⟨hro, htb, ?_, ?_, hstart⟩
                    · intro r' hr'
                      rw [hpc, hlookc] at hr'
                      cases hr'
                    · intro _
                      rw [hpc, hE c (by simp)]
                  · refine ⟨hro, htb, ?_, ?_, hstart⟩
                    · intro r' hr'
                      rw [hlkq p.pid hpc] at hr'
                      exact hsome r' hr'
                    · intro hn
                      rw [hlkq p.pid hpc] at hn
                      exact hnone hn
              obtain ⟨hok', hpl, hlk⟩ := ih _ st' h
                (fun x hx => hE x (by simp [hx])) hok1
              refine ⟨hok', hpl, ?_⟩
              intro q hq
              rcases hlk q hq with h1 | h1
              · by_cases hqc : q = c
                · exact Or.inr (by simp [hqc])
                · rw [hlkq q hqc] at h1
                  exact Or.inl h1
              · exact Or.inr (by simp [h1])

theorem startsGo_spec (B : Pid → FTime × FTime) (k : FTime)
    (place : Pid → Except LErr (Option PlacedProcess))
    (hplace : ∀ c cp, place c = .ok (some cp) →
      cp.pid = c ∧ cp.rowOffset = 0 ∧ cp.timeBound = B c ∧ 1 ≤ cp.rowHeight) :
    ∀ (S : List Pid) (st st' : SweepState),
      startsGo place S st = .ok st' →
      (∀ c ∈ S, (B c).1 = k) →
      SweepOk B (fun x => x ≤ k) (fun x => x ≤ k) st →
      (∀ p ∈ st.placed, activeLookup st.active p.pid = none → (B p.pid).1 < k) →
      SweepOk B (fun x => x ≤ k) (fun x => x ≤ k) st' ∧
      (∀ p ∈ st'.placed, activeLookup st'.active p.pid = none → (B p.pid).1 < k) := by
  intro S
  induction S with
  | nil =>
      intro st st' h hS hok hextra
      simp only [startsGo] at h
      injection h with h
      subst h
      exact ⟨hok, hextra⟩
  | cons c cs ih =>
      intro st st' h hS hok hextra
      simp only [startsGo] at h
      cases hpl : place c with
      | error e => rw [hpl] at h; cases h
      | ok o =>
          cases o with
          | none =>
              rw [hpl] at h
              exact ih st st' h (fun x hx => hS x (by simp [hx])) hok hextra
          | some cp =>
              rw [hpl] at h
              obtain ⟨hcpid, hcro, hctb, hch⟩ := hplace c cp hpl
              cases hfa : freeAllocate st.free cp.rowHeight with
              | mk row free' =>
                simp only [hfa] at h
                by_cases hact : (activeRemove st.active c).isSome = true
                · rw [if_pos hact] at h
                  cases h
                · rw [if_neg hact] at h
                  have hremnone : activeRemove st.active c = none :=
                    Option.not_isSome_iff_eq_none.mp hact
                  have hlookc : activeLookup st.active c = none :=
                    (activeRemove_none_iff _ _).mp hremnone
                  obtain ⟨hsle, hlen, hunch, hfalse, hwasfree⟩ :=
                    freeAllocate_spec st.free cp.rowHeight row free' hfa
                  obtain ⟨⟨hocc, hpair⟩, hpairs, hfacts⟩ := hok
                  have hkc : (B c).1 = k := hS c (by simp)
                  -- the allocated range is disjoint from every occupied range
                  have hdisj : ∀ r0, cellsOccupied st.free r0 →
                      rangesDisjoint r0 (row, row + cp.rowHeight) := by
                    intro r0 h0 j hj
                    have h1 : maskGet st.free j = false :=
                      h0.2 j hj.1 hj.2.1
                    have h2 : maskGet st.free j = true :=
                      hwasfree j hj.2.2.1 hj.2.2.2 (by have := h0.1; omega)
                    rw [h1] at h2
                    cases h2
                  set pnew : PlacedProcess := { cp with rowOffset := 1 + row }
                    with hpnew
                  have hpnewrange : pRange pnew = (row, row + cp.rowHeight) := by
                    simp [pRange, hpnew]
                  have hpnewpid : pnew.pid = c := hcpid
                  have hpnewtb : pnew.timeBound = B c := hctb
                  -- the new sweep state
                  have hok2 : SweepOk B (fun x => x ≤ k) (fun x => x ≤ k)
                      { free := free',
                        active := st.active ++ [(c, (row, row + cp.rowHeight))],
                        placed := st.placed ++ [pnew],
                        maxDepth := max st.maxDepth cp.maxDepth } := by
                    refine ⟨⟨?_, ?_⟩, ?_, ?_⟩
                    · intro e he
                      rcases List.mem_append.mp he with h1 | h1
                      · have hoc := hocc e h1
                        refine cellsOccupied_transport hoc
                          (by show st.free.length ≤ free'.length; omega) ?_
                        intro j hj1 hj2
                        apply hunch
                        have := hdisj e.2 hoc j
                        omega
                      · rw [List.mem_singleton.mp h1]
                        refine ⟨by simpa using by omega, ?_⟩
                        intro j hj1 hj2
                        exact hfalse j hj1 hj2
                    · rw [List.pairwise_append]
                      refine ⟨hpair, List.pairwise_singleton _ _, ?_⟩
                      intro a ha b hb
                      rw [List.mem_singleton.mp hb]
                      constructor
                      · exact (activeLookup_none_iff _ _).mp hlookc a ha
                      · exact hdisj a.2 (hocc a ha)
                    · rw [PairsOk, List.pairwise_append]
                      refine ⟨hpairs, List.pairwise_singleton _ _, ?_⟩
                      intro a ha b hb hov
                      rw [List.mem_singleton.mp hb] at hov ⊢
                      obtain ⟨hro, htb, hsome, hnone, hstart⟩ := hfacts a ha
                      cases hlka : activeLookup st.active a.pid with
                      | some ra =>
                          have hra : ra = pRange a := hsome ra hlka
                          have hmem := activeLookup_mem _ _ _ hlka
                          have hocca := hocc _ hmem
                          rw [hpnewrange, ← hra]
                          exact hdisj ra hocca
                      | none =>
                          exfalso
                          have hend := hnone hlka
                          obtain ⟨hov1, hov2⟩ := hov
                          rw [hpnewtb, hkc, htb] at hov2
                          exact absurd (lt_of_lt_of_le hov2 hend) (lt_irrefl _)
                    · intro p hp
                      rcases List.mem_append.mp hp with h1 | h1
                      · obtain ⟨hro, htb, hsome, hnone, hstart⟩ := hfacts p h1
                        by_cases hpc : p.pid = c
                        · exfalso
                          cases hlka : activeLookup st.active p.pid with
                          | some ra => rw [hpc, hlookc] at hlka; cases hlka
                          | none =>
                              have := hextra p h1 hlka
                              rw [hpc, hkc] at this
                              exact absurd this (lt_irrefl _)
                        · refine ⟨hro, htb, ?_, ?_, hstart⟩
                          · intro r' hr'
                            rw [activeLookup_append] at hr'
                            cases hl0 : activeLookup st.active p.pid with
                            | some x =>
                                rw [hl0] at hr'
                                injection hr' with hr'
                                exact hsome r' (by rw [hl0, hr'])
                            | none =>
                                rw [hl0] at hr'
                                rw [if_neg (fun hh => hpc hh.symm)] at hr'
                                cases hr'
                          · intro hn
                            rw [activeLookup_append] at hn
                            cases hl0 : activeLookup st.active p.pid with
                            | some x => rw [hl0] at hn; cases hn
                            | none => exact hnone hl0
                      · rw [List.mem_singleton.mp h1]
                        refine ⟨by simp [hpnew], ?_, ?_, ?_, ?_⟩
                        · rw [hpnewtb, hpnewpid]
                        · intro r' hr'
                          rw [hpnewpid, activeLookup_append, hlookc] at hr'
                          rw [if_pos rfl] at hr'
                          injection hr' with hr'
                          rw [← hr', hpnewrange]
                        · intro hn
                          rw [hpnewpid, activeLookup_append, hlookc] at hn
                          rw [if_pos rfl] at hn
                          cases hn
                        · rw [hpnewpid, hkc]
                  have hextra2 : ∀ p ∈ st.placed ++ [pnew],
                      activeLookup (st.active ++ [(c, (row, row + cp.rowHeight))])
                        p.pid = none → (B p.pid).1 < k := by
                    intro p hp hn
                    rw [activeLookup_append] at hn
                    cases hl0 : activeLookup st.active p.pid with
                    | some x => rw [hl0] at hn; cases hn
                    | none =>
                        rw [hl0] at hn
                        rcases List.mem_append.mp hp with h1 | h1
                        · exact hextra p h1 hl0
                        · exfalso
                          rw [List.mem_singleton.mp h1, hpnewpid] at hn
                          rw [if_pos rfl] at hn
                          cases hn
                  exact ih _ st' h (fun x hx => hS x (by simp [hx])) hok2 hextra2

theorem sweep_run (B : Pid → FTime × FTime)
    (place : Pid → Except LErr (Option PlacedProcess))
    (hplace : ∀ c cp, place c = .ok (some cp) →
      cp.pid = c ∧ cp.rowOffset = 0 ∧ cp.timeBound = B c ∧ 1 ≤ cp.rowHeight) :
    ∀ (KL : List (FTime × (List Pid × List Pid))) (st st' : SweepState),
      sweepGo place (KL.map (fun kv => kv.2)) st = .ok st' →
      List.Pairwise (fun a b => a.1 < b.1) KL →
      (∀ kb ∈ KL, ∀ c ∈ kb.2.1, (B c).1 = kb.1) →
      (∀ kb ∈ KL, ∀ c ∈ kb.2.2, (B c).2 = kb.1) →
      ActiveOk st → PairsOk st.placed →
      (∀ p ∈ st.placed, 1 ≤ p.rowOffset ∧ p.timeBound = B p.pid ∧
        (∀ r, activeLookup st.active p.pid = some r → r = pRange p) ∧
        (activeLookup st.active p.pid = none → ∀ kb ∈ KL, (B p.pid).2 < kb.1) ∧
        (∀ kb ∈ KL, (B p.pid).1 < kb.1)) →
      PairsOk st'.placed ∧ (∀ p ∈ st'.placed, 1 ≤ p.rowOffset) := by
  intro KL
  induction KL with
  | nil =>
      intro st st' h hsorted hS hE hao hpo hfacts
      simp only [List.map_nil, sweepGo] at h
      injection h with h
      subst h
      exact ⟨hpo, fun p hp => (hfacts p hp).1⟩
  | cons kb KR ih =>
      obtain ⟨k, S, E⟩ := kb
      intro st st' h hsorted hS hE hao hpo hfacts
      simp only [List.map_cons, sweepGo] at h
      cases hends : endsGo E st with
      | error e => simp only [hends] at h; cases h
      | ok st1 =>
          simp only [hends] at h
          cases hstarts : startsGo place S st1 with
          | error e => simp only [hstarts] at h; cases h
          | ok st2 =>
              simp only [hstarts] at h
              have hkKR : ∀ kb ∈ KR, k < kb.1 :=
                fun kb hkb => (List.pairwise_cons.mp hsorted).1 kb hkb
              have hok0 : SweepOk B (fun x => x ≤ k) (fun x => x < k) st := by
                refine ⟨hao, hpo, ?_⟩
                intro p hp
                obtain ⟨h1, h2, h3, h4, h5⟩ := hfacts p hp
                refine ⟨h1, h2, h3, ?_, ?_⟩
                · intro hn
                  exact le_of_lt (h4 hn (k, S, E) (by simp))
                · exact h5 (k, S, E) (by simp)
              obtain ⟨hok1, hpl1, hlk1⟩ := endsGo_spec B k E st st1 hends
                (fun c hc => hE (k, S, E) (by simp) c hc) hok0
              have hok1w : SweepOk B (fun x => x ≤ k) (fun x => x ≤ k) st1 := by
                obtain ⟨ha, hb, hc⟩ := hok1
                refine ⟨ha, hb, ?_⟩
                intro p hp
                obtain ⟨h1, h2, h3, h4, h5⟩ := hc p hp
                exact ⟨h1, h2, h3, h4, le_of_lt h5⟩
              have hex1 : ∀ p ∈ st1.placed,
                  activeLookup st1.active p.pid = none → (B p.pid).1 < k := by
                intro p hp _
                exact (hok1.2.2 p hp).2.2.2.2
              obtain ⟨hok2, hex2⟩ := startsGo_spec B k place hplace S st1 st2
                hstarts (fun c hc => hS (k, S, E) (by simp) c hc) hok1w hex1
              refine ih st2 st' h (List.pairwise_cons.mp hsorted).2
                (fun kb hkb c hc => hS kb (by simp [hkb]) c hc)
                (fun kb hkb c hc => hE kb (by simp [hkb]) c hc)
                hok2.1 hok2.2.1 ?_
              intro p hp
              obtain ⟨h1, h2, h3, h4, h5⟩ := hok2.2.2 p hp
              refine ⟨h1, h2, h3, ?_, ?_⟩
              · intro hn kb hkb
                exact lt_of_le_of_lt (h4 hn) (hkKR kb hkb)
              · intro kb hkb
                exact lt_of_le_of_lt h5 (hkKR kb hkb)

/-! ### Layout: event-table construction and sorting -/

theorem tteAddStart_facts (bound : Pid → Except LErr (FTime × FTime))
    (b : FTime × FTime) (c : Pid)
    (hb : bound c = .ok b) (hnd : b.1 ≠ b.2) :
    ∀ (l : EventTable), TTEFacts bound l → TTEFacts bound (tteAddStart l b.1 c) := by
  intro l
  induction l with
  | nil =>
      intro _ kse hkse
      simp only [tteAddStart] at hkse
      rw [List.mem_singleton] at hkse
      subst hkse
      exact ⟨fun x hx => by rw [List.mem_singleton.mp hx]; exact ⟨b, hb, rfl, hnd⟩,
        fun x hx => absurd hx (List.not_mem_nil x)⟩
  | cons e rest ih =>
      intro hf kse hkse
      obtain ⟨ek, es, ee⟩ := e
      simp only [tteAddStart] at hkse
      split at hkse
      · next heq =>
          rcases List.mem_cons.mp hkse with h | h
          · subst h
            refine ⟨?_, (hf (ek, es, ee) (by simp)).2⟩
            intro x hx
            rcases List.mem_append.mp hx with h1 | h1
            · exact (hf (ek, es, ee) (by simp)).1 x h1
            · rw [List.mem_singleton.mp h1]
              exact ⟨b, hb, heq.symm ▸ rfl, hnd⟩
          · exact hf kse (by simp [h])
      · rcases List.mem_cons.mp hkse with h | h
        · exact hf kse (by simp [h])
        · exact ih (fun x hx => hf x (by simp [hx])) kse h

theorem tteAddEnd_facts (bound : Pid → Except LErr (FTime × FTime))
    (b : FTime × FTime) (c : Pid)
    (hb : bound c = .ok b) (hnd : b.1 ≠ b.2) :
    ∀ (l : EventTable), TTEFacts bound l → TTEFacts bound (tteAddEnd l b.2 c) := by
  intro l
  induction l with
  | nil =>
      intro _ kse hkse
      simp only [tteAddEnd] at hkse
      rw [List.mem_singleton] at hkse
      subst hkse
      exact ⟨fun x hx => absurd hx (List.not_mem_nil x),
        fun x hx => by rw [List.mem_singleton.mp hx]; exact ⟨b, hb, rfl, hnd⟩⟩
  | cons e rest ih =>
      intro hf kse hkse
      obtain ⟨ek, es, ee⟩ := e
      simp only [tteAddEnd] at hkse
      split at hkse
      · next heq =>
          rcases List.mem_cons.mp hkse with h | h
          · subst h
            refine ⟨(hf (ek, es, ee) (by simp)).1, ?_⟩
            intro x hx
            rcases List.mem_append.mp hx with h1 | h1
            · exact (hf (ek, es, ee) (by simp)).2 x h1
            · rw [List.mem_singleton.mp h1]
              exact ⟨b, hb, heq.symm ▸ rfl, hnd⟩
          · exact hf kse (by simp [h])
      · rcases List.mem_cons.mp hkse with h | h
        · exact hf kse (by simp [h])
        · exact ih (fun x hx => hf x (by simp [hx])) kse h

theorem buildEvents_facts (bound : Pid → Except LErr (FTime × FTime)) :
    ∀ (l : List Pid) (acc tte : EventTable),
      buildEvents bound l acc = .ok tte →
      TTEFacts bound acc → TTEFacts bound tte := by
  intro l
  induction l with
  | nil =>
      intro acc tte h hacc
      simp only [buildEvents] at h
      injection h with h
      subst h
      exact hacc
  | cons c rest ih =>
      intro acc tte h hacc
      simp only [buildEvents] at h
      cases hb : bound c with
      | error e => simp only [hb] at h; cases h
      | ok cb =>
          simp only [hb] at h
          by_cases hd : cb.1 = cb.2
          · rw [if_pos hd] at h
            exact ih _ _ h hacc
          · rw [if_neg hd] at h
            exact ih _ _ h
              (tteAddEnd_facts bound cb c hb hd _
                (tteAddStart_facts bound cb c hb hd _ hacc))

theorem tteAddStart_keys (l : EventTable) (t : FTime) (c : Pid) :
    (tteAddStart l t c).map Prod.fst =
      if t ∈ l.map Prod.fst then l.map Prod.fst else l.map Prod.fst ++ [t] := by
  induction l with
  | nil => simp [tteAddStart]
  | cons e rest ih =>
      obtain ⟨ek, es, ee⟩ := e
      simp only [tteAddStart]
      by_cases he : ek = t
      · rw [if_pos he]
        simp [he]
      · rw [if_neg he]
        simp only [List.map_cons]
        rw [ih]
        by_cases hm : t ∈ rest.map Prod.fst
        · rw [if_pos hm, if_pos (by simp [hm])]
        · rw [if_neg hm, if_neg (by simp [hm, Ne.symm he]), List.cons_append]

theorem tteAddEnd_keys (l : EventTable) (t : FTime) (c : Pid) :
    (tteAddEnd l t c).map Prod.fst =
      if t ∈ l.map Prod.fst then l.map Prod.fst else l.map Prod.fst ++ [t] := by
  induction l with
  | nil => simp [tteAddEnd]
  | cons e rest ih =>
      obtain ⟨ek, es, ee⟩ := e
      simp only [tteAddEnd]
      by_cases he : ek = t
      · rw [if_pos he]
        simp [he]
      · rw [if_neg he]
        simp only [List.map_cons]
        rw [ih]
        by_cases hm : t ∈ rest.map Prod.fst
        · rw [if_pos hm, if_pos (by simp [hm])]
        · rw [if_neg hm, if_neg (by simp [hm, Ne.symm he]), List.cons_append]

theorem keys_nodup_after_add (l : List FTime) (t : FTime)
    (h : List.Pairwise (fun a b => a ≠ b) l) :
    List.Pairwise (fun a b => a ≠ b)
      (if t ∈ l then l else l ++ [t]) := by
  by_cases hm : t ∈ l
  · rw [if_pos hm]; exact h
  · rw [if_neg hm]
    rw [List.pairwise_append]
    exact ⟨h, List.pairwise_singleton _ _,
      fun a ha b hb => by rw [List.mem_singleton.mp hb]; exact fun hh => hm (hh ▸ ha)⟩

theorem buildEvents_keys (bound : Pid → Except LErr (FTime × FTime)) :
    ∀ (l : List Pid) (acc tte : EventTable),
      buildEvents bound l acc = .ok tte →
      List.Pairwise (fun a b => a ≠ b) (acc.map Prod.fst) →
      List.Pairwise (fun a b => a ≠ b) (tte.map Prod.fst) := by
  intro l
  induction l with
  | nil =>
      intro acc tte h hacc
      simp only [buildEvents] at h
      injection h with h
      subst h
      exact hacc
  | cons c rest ih =>
      intro acc tte h hacc
      simp only [buildEvents] at h
      cases hb : bound c with
      | error e => simp only [hb] at h; cases h
      | ok cb =>
          simp only [hb] at h
          by_cases hd : cb.1 = cb.2
          · rw [if_pos hd] at h
            exact ih _ _ h hacc
          · rw [if_neg hd] at h
            refine ih _ _ h ?_
            rw [tteAddEnd_keys, tteAddStart_keys]
            exact keys_nodup_after_add _ _ (keys_nodup_after_add _ _ hacc)

theorem sortEvents_perm (l : EventTable) : List.Perm (sortEvents l) l :=
  List.perm_insertionSort _ l

theorem sortEvents_sorted (l : EventTable) :
    List.Pairwise (fun (a b : FTime × (List Pid × List Pid)) => a.1 ≤ b.1)
      (sortEvents l) :=
  List.sorted_insertionSort _ l

theorem sortEvents_pairwise_lt (l : EventTable)
    (hnd : List.Pairwise (fun a b => a ≠ b) (l.map Prod.fst)) :
    List.Pairwise (fun a b => a.1 < b.1) (sortEvents l) := by
  have hperm : List.Perm (sortEvents l) l := sortEvents_perm l
  have hnd1 : List.Pairwise
      (fun (a b : FTime × (List Pid × List Pid)) => a.1 ≠ b.1) l :=
    List.pairwise_map.mp hnd
  have hnd2 : List.Pairwise
      (fun (a b : FTime × (List Pid × List Pid)) => a.1 ≠ b.1) (sortEvents l) := by
    refine (List.Perm.pairwise_iff ?_ hperm).mpr hnd1
    intro a b h
    exact Ne.symm h
  exact ((sortEvents_sorted l).and hnd2).imp
    (fun h => lt_of_le_of_ne h.1 h.2)

theorem tbChildren_mono (recurse rc : Pid → Except LErr (FTime × FTime))
    (hm : ∀ c b, recurse c = .ok b → rc c = .ok b) :
    ∀ (l : List (ProcessKind × Pid)) (acc b : FTime × FTime),
      tbChildren recurse l acc = .ok b → tbChildren rc l acc = .ok b := by
  intro l
  induction l with
  | nil => intro acc b h; exact h
  | cons kc rest ih =>
      intro acc b h
      obtain ⟨k, c⟩ := kc
      simp only [tbChildren] at h ⊢
      cases hrc : recurse c with
      | error e => simp only [hrc] at h; cases h
      | ok cb =>
          simp only [hrc] at h
          simp only [hm c cb hrc]
          exact ih _ _ h

theorem processTimeBound_mono :
    ∀ (fuel : Nat) (rec : Recording) (c : Pid) (b : FTime × FTime),
      processTimeBound rec fuel c = .ok b →
      processTimeBound rec (fuel + 1) c = .ok b := by
  intro fuel
  induction fuel with
  | zero => intro rec c b h; simp only [processTimeBound] at h; cases h
  | succ f ih =>
      intro rec c b h
      simp only [processTimeBound] at h
      have hgoal : processTimeBound rec (f + 1 + 1) c =
          (match mapGet rec.processes c with
           | none => .ok (ftTop, ftBot)
           | some info =>
               match tbChildren (fun c => processTimeBound rec (f + 1) c)
                   info.children (ftTop, ftBot) with
               | .error e => .error e
               | .ok acc => .ok (ownTimesFold info acc)) := rfl
      rw [hgoal]
      cases hinfo : mapGet rec.processes c with
      | none => simp only [hinfo] at h ⊢; exact h
      | some info =>
          simp only [hinfo] at h ⊢
          cases htb : tbChildren (fun c => processTimeBound rec f c)
              info.children (ftTop, ftBot) with
          | error e => simp only [htb] at h; cases h
          | ok acc =>
              simp only [htb] at h
              have h2 := tbChildren_mono _ _
                (fun c b hb => ih rec c b hb) info.children (ftTop, ftBot) acc htb
              simp only [h2]
              exact h

theorem endsGo_placed : ∀ (E : List Pid) (st st' : SweepState),
    endsGo E st = .ok st' → st'.placed = st.placed := by
  intro E
  induction E with
  | nil =>
      intro st st' h
      simp only [endsGo] at h
      injection h with h
      subst h
      rfl
  | cons c cs ih =>
      intro st st' h
      simp only [endsGo] at h
      cases hrem : activeRemove st.active c with
      | none =>
          simp only [hrem] at h
          exact ih st st' h
      | some p =>
          obtain ⟨r, active'⟩ := p
          simp only [hrem] at h
          cases hrel : freeRelease st.free r.1 (r.2 - r.1) with
          | error e => simp only [hrel] at h; cases h
          | ok free' =>
              simp only [hrel] at h
              exact ih { st with free := free', active := active' } st' h

theorem startsGo_provenance
    (place : Pid → Except LErr (Option PlacedProcess)) :
    ∀ (S : List Pid) (st st' : SweepState),
      startsGo place S st = .ok st' →
      ∀ p ∈ st'.placed, p ∈ st.placed ∨
        ∃ c cp row, place c = .ok (some cp) ∧
          p = { cp with rowOffset := 1 + row } := by
  intro S
  induction S with
  | nil =>
      intro st st' h p hp
      simp only [startsGo] at h
      injection h with h
      subst h
      exact Or.inl hp
  | cons c cs ih =>
      intro st st' h p hp
      simp only [startsGo] at h
      cases hpl : place c with
      | error e => rw [hpl] at h; cases h
      | ok o =>
          cases o with
          | none =>
              rw [hpl] at h
              exact ih st st' h p hp
          | some cp =>
              rw [hpl] at h
              cases hfa : freeAllocate st.free cp.rowHeight with
              | mk row free' =>
                simp only [hfa] at h
                by_cases hact : (activeRemove st.active c).isSome = true
                · rw [if_pos hact] at h
                  cases h
                · rw [if_neg hact] at h
                  rcases ih _ st' h p hp with h1 | h1
                  · rcases List.mem_append.mp h1 with h2 | h2
                    · exact Or.inl h2
                    · exact Or.inr ⟨c, cp, row, hpl, List.mem_singleton.mp h2⟩
                  · exact Or.inr h1

theorem sweepGo_provenance
    (place : Pid → Except LErr (Option PlacedProcess)) :
    ∀ (L : List (List Pid × List Pid)) (st st' : SweepState),
      sweepGo place L st = .ok st' →
      ∀ p ∈ st'.placed, p ∈ st.placed ∨
        ∃ c cp row, place c = .ok (some cp) ∧
          p = { cp with rowOffset := 1 + row } := by
  intro L
  induction L with
  | nil =>
      intro st st' h p hp
      simp only [sweepGo] at h
      injection h with h
      subst h
      exact Or.inl hp
  | cons kb rest ih =>
      obtain ⟨S, E⟩ := kb
      intro st st' h p hp
      simp only [sweepGo] at h
      cases hends : endsGo E st with
      | error e => simp only [hends] at h; cases h
      | ok st1 =>
          simp only [hends] at h
          cases hstarts : startsGo place S st1 with
          | error e => simp only [hstarts] at h; cases h
          | ok st2 =>
              simp only [hstarts] at h
              rcases ih st2 st' h p hp with h1 | h1
              · rcases startsGo_provenance place S st1 st2 hstarts p h1 with h2 | h2
                · rw [endsGo_placed E st st1 hends] at h2
                  exact Or.inl h2
                · exact Or.inr h2
              · exact Or.inr h1

theorem place_node_ok (rec : Recording) (incT : Bool) (fuel : Nat)
    (pid : Pid) (depth : Nat) (t : PlacedProcess)
    (h : placeProcess rec incT (fuel + 1) pid depth = .ok (some t)) :
    NodeOk t := by
  obtain ⟨info, children, tte, st, tb, hinfo, h1, h2, h3, h4, ht⟩ :=
    placeProcess_ok_some rec incT fuel pid depth t h
  have hplace : ∀ c cp, placeProcess rec incT fuel c (depth + 1) = .ok (some cp) →
      cp.pid = c ∧ cp.rowOffset = 0 ∧
      cp.timeBound = timeBoundVal rec (fuel + 1) c ∧ 1 ≤ cp.rowHeight := by
    intro c cp hcp
    cases fuel with
    | zero => simp only [placeProcess] at hcp; cases hcp
    | succ g =>
        obtain ⟨i2, ch2, tte2, st2, tb2, _, _, _, _, htb2, hcpeq⟩ :=
          placeProcess_ok_some rec incT g c (depth + 1) cp hcp
        subst hcpeq
        refine ⟨rfl, rfl, ?_, by simp⟩
        have hmono := processTimeBound_mono (g + 1) rec c tb2 htb2
        simp only [timeBoundVal, hmono]
  have hfacts : TTEFacts (fun c => processTimeBound rec (fuel + 1) c) tte :=
    buildEvents_facts _ children [] tte h2
      (fun kse hkse => absurd hkse (List.not_mem_nil kse))
  have hkeys : List.Pairwise (fun a b => a ≠ b) (tte.map Prod.fst) :=
    buildEvents_keys _ children [] tte h2 (by simp)
  have hsorted := sortEvents_pairwise_lt tte hkeys
  have hS : ∀ kb ∈ sortEvents tte, ∀ c ∈ kb.2.1,
      (timeBoundVal rec (fuel + 1) c).1 = kb.1 := by
    intro kb hkb c hc
    have hkb2 : kb ∈ tte := (sortEvents_perm tte).mem_iff.mp hkb
    obtain ⟨b, hb, hb1, _⟩ := (hfacts kb hkb2).1 c hc
    simp only [timeBoundVal, hb]
    exact hb1
  have hE : ∀ kb ∈ sortEvents tte, ∀ c ∈ kb.2.2,
      (timeBoundVal rec (fuel + 1) c).2 = kb.1 := by
    intro kb hkb c hc
    have hkb2 : kb ∈ tte := (sortEvents_perm tte).mem_iff.mp hkb
    obtain ⟨b, hb, hb2, _⟩ := (hfacts kb hkb2).2 c hc
    simp only [timeBoundVal, hb]
    exact hb2
  have hrun := sweep_run (timeBoundVal rec (fuel + 1))
      (fun c => placeProcess rec incT fuel c (depth + 1)) hplace
      (sortEvents tte)
      { free := [], active := [], placed := [], maxDepth := depth } st
      h3 hsorted hS hE
      ⟨fun e he => absurd he (List.not_mem_nil e), List.Pairwise.nil⟩
      List.Pairwise.nil
      (fun p hp => absurd hp (List.not_mem_nil p))
  rw [ht]
  exact hrun

theorem placeProcess_everyNode (rec : Recording) (incT : Bool) :
    ∀ (fuel : Nat) (pid : Pid) (depth : Nat) (t : PlacedProcess),
      placeProcess rec incT fuel pid depth = .ok (some t) →
      EveryNode NodeOk t := by
  intro fuel
  induction fuel with
  | zero =>
      intro pid depth t h
      simp only [placeProcess] at h
      cases h
  | succ f ih =>
      intro pid depth t h
      refine EveryNode.mk t (place_node_ok rec incT f pid depth t h) ?_
      intro c hc
      obtain ⟨info, children, tte, st, tb, _, _, _, h3, _, ht⟩ :=
        placeProcess_ok_some rec incT f pid depth t h
      have hc2 : c ∈ st.placed := by
        rw [ht] at hc
        exact hc
      rcases sweepGo_provenance _ _ _ _ h3 c hc2 with h0 | ⟨cc, cp, row, hcc, hceq⟩
      · exact absurd h0 (List.not_mem_nil c)
      · subst hceq
        cases ih cc (depth + 1) cp hcc with
        | mk _ hroot hch => exact EveryNode.mk _ hroot hch

theorem EveryNode_reaches {P : PlacedProcess → Prop}
    {t : PlacedProcess} {base : Nat} {n : PlacedProcess} {off : Nat}
    (hr : ReachesAt t base n off) : EveryNode P t → P n := by
  induction hr with
  | here t base =>
      intro he
      cases he with
      | mk _ hroot _ => exact hroot
  | child t base c n off hc h ih =>
      intro he
      cases he with
      | mk _ hroot hch => exact ih (hch c hc)

/-- **C2.** In every placed tree produced by `place_processes`, any two
distinct sibling children whose time bounds overlap (share a common active
instant) have disjoint absolute row ranges `[abs + 1, abs + row_height)`,
where a node's absolute row `abs` is the sum of the `row_offset` values on
its path from the root (`off` is the parent's absolute row, so a child's is
`off + row_offset`). -/
theorem c2_sibling_rows_disjoint (rec : Recording) (incT : Bool) (fuel : Nat)
    (t : PlacedProcess) (h : placeProcesses rec incT fuel = .ok (some t))
    (n : PlacedProcess) (off : Nat) (hreach : ReachesAt t 0 n off)
    (i j : Nat) (hi : i < n.children.length) (hj : j < n.children.length)
    (hij : i ≠ j)
    (hov : BoundsOverlap (n.children.get ⟨i, hi⟩).timeBound
      (n.children.get ⟨j, hj⟩).timeBound) :
    ∀ r : Nat,
      ¬((off + (n.children.get ⟨i, hi⟩).rowOffset + 1 ≤ r ∧
          r < off + (n.children.get ⟨i, hi⟩).rowOffset +
            (n.children.get ⟨i, hi⟩).rowHeight) ∧
        (off + (n.children.get ⟨j, hj⟩).rowOffset + 1 ≤ r ∧
          r < off + (n.children.get ⟨j, hj⟩).rowOffset +
            (n.children.get ⟨j, hj⟩).rowHeight)) := by
  have hev : EveryNode NodeOk t := by
    cases fuel with
    | zero =>
        exfalso
        simp only [placeProcesses] at h
        cases hroot : rec.rootPid with
        | none => rw [hroot] at h; cases h
        | some rp =>
            rw [hroot] at h
            simp only [placeProcess] at h
            cases h
    | succ f =>
        simp only [placeProcesses] at h
        cases hroot : rec.rootPid with
        | none => rw [hroot] at h; cases h
        | some rp =>
            rw [hroot] at h
            exact placeProcess_everyNode rec incT (f + 1) rp 0 t h
  have hnode : NodeOk n := EveryNode_reaches hreach hev
  obtain ⟨hpairs, hro⟩ := hnode
  have hdisj : rangesDisjoint (pRange (n.children.get ⟨i, hi⟩))
      (pRange (n.children.get ⟨j, hj⟩)) := by
    have hpg := List.pairwise_iff_getElem.mp hpairs
    rcases Nat.lt_or_ge i j with hlt | hge
    · have := hpg i j hi hj hlt
      simp only [List.get_eq_getElem]
      exact this hov
    · have hlt : j < i := Nat.lt_of_le_of_ne hge (fun hh => hij hh.symm)
      have := hpg j i hj hi hlt
      simp only [List.get_eq_getElem]
      exact rangesDisjoint_symm (this ⟨hov.2, hov.1⟩)
  have hri : 1 ≤ (n.children.get ⟨i, hi⟩).rowOffset :=
    hro _ (List.get_mem n.children i hi)
  have hrj : 1 ≤ (n.children.get ⟨j, hj⟩).rowOffset :=
    hro _ (List.get_mem n.children j hj)
  intro r hr
  have hd := hdisj (r - off - 1)
  simp only [pRange] at hd
  exact hd (by omega)

theorem c2_witness :
    placeProcesses recC2 false 10 = .ok (some tC2) ∧
    (0 < tC2.children.length ∧ 1 < tC2.children.length ∧ (0 : Nat) ≠ 1) ∧
    BoundsOverlap (tC2.children.getD 0 dummyPlaced).timeBound
      (tC2.children.getD 1 dummyPlaced).timeBound ∧
    ∀ r : Nat,
      ¬((0 + (tC2.children.getD 0 dummyPlaced).rowOffset + 1 ≤ r ∧
          r < 0 + (tC2.children.getD 0 dummyPlaced).rowOffset +
            (tC2.children.getD 0 dummyPlaced).rowHeight) ∧
        (0 + (tC2.children.getD 1 dummyPlaced).rowOffset + 1 ≤ r ∧
          r < 0 + (tC2.children.getD 1 dummyPlaced).rowOffset +
            (tC2.children.getD 1 dummyPlaced).rowHeight)) := by
  refine ⟨rfl, ⟨by decide, by decide, by decide⟩, ⟨by decide, by decide⟩, ?_⟩
  exact c2_sibling_rows_disjoint recC2 false 10 tC2 rfl tC2 0
    (ReachesAt.here tC2 0) 0 1 (by decide) (by decide) (by decide)
    ⟨by decide, by decide⟩

theorem mapGet_append {V : Type} : ∀ (l1 l2 : List (Pid × V)) (q : Pid),
    mapGet (l1 ++ l2) q =
      (match mapGet l1 q with
       | some v => some v
       | none => mapGet l2 q) := by
  intro l1 l2 q
  induction l1 with
  | nil => simp [mapGet]
  | cons kv rest ih =>
      obtain ⟨k, v⟩ := kv
      by_cases hk : k = q
      · simp [mapGet, hk]
      · simp [mapGet, hk, ih]

theorem mapGet_mem {V : Type} : ∀ (m : List (Pid × V)) (p : Pid) (v : V),
    mapGet m p = some v → (p, v) ∈ m := by
  intro m
  induction m with
  | nil => intro p v h; cases h
  | cons kv rest ih =>
      obtain ⟨k, w⟩ := kv
      intro p v h
      simp only [mapGet] at h
      by_cases hk : k = p
      · rw [if_pos hk] at h
        injection h with h
        subst hk
        subst h
        exact List.mem_cons_self _ _
      · rw [if_neg hk] at h
        exact List.mem_cons_of_mem _ (ih p v h)

theorem insertThread_mapGet_tpid (rec : Recording) (host tpid : Pid)
    (tinfo : ProcessInfo) (hfresh : mapGet rec.processes tpid = none) :
    mapGet (insertThread rec host tpid tinfo).processes tpid = some tinfo := by
  show mapGet (mapUpdate rec.processes host _ ++ [(tpid, tinfo)]) tpid = some tinfo
  rw [mapGet_append, mapGet_mapUpdate]
  by_cases ht : tpid = host
  · rw [if_pos ht, ← ht, hfresh]
    simp [mapGet]
  · rw [if_neg ht, hfresh]
    simp [mapGet]

theorem insertThread_mapGet_host (rec : Recording) (host tpid : Pid)
    (tinfo hinfo : ProcessInfo)
    (hhost : mapGet rec.processes host = some hinfo) :
    mapGet (insertThread rec host tpid tinfo).processes host =
      some { hinfo with children := hinfo.children ++ [(.thread, tpid)] } := by
  show mapGet (mapUpdate rec.processes host _ ++ [(tpid, tinfo)]) host = _
  rw [mapGet_append, mapGet_mapUpdate, if_pos rfl, hhost]
  rfl

theorem insertThread_mapGet_other (rec : Recording) (host tpid : Pid)
    (tinfo : ProcessInfo) (q : Pid) (hq1 : q ≠ tpid) (hq2 : q ≠ host) :
    mapGet (insertThread rec host tpid tinfo).processes q =
      mapGet rec.processes q := by
  show mapGet (mapUpdate rec.processes host _ ++ [(tpid, tinfo)]) q = _
  rw [mapGet_append, mapGet_mapUpdate, if_neg hq2]
  cases hg : mapGet rec.processes q with
  | some v => rfl
  | none =>
      simp only [mapGet]
      rw [if_neg (fun hh => hq1 hh.symm)]

theorem tbChildren_append (recurse : Pid → Except LErr (FTime × FTime)) :
    ∀ (l1 l2 : List (ProcessKind × Pid)) (acc a : FTime × FTime),
      tbChildren recurse l1 acc = .ok a →
      tbChildren recurse (l1 ++ l2) acc = tbChildren recurse l2 a := by
  intro l1
  induction l1 with
  | nil =>
      intro l2 acc a h
      injection h with h
      subst h
      rfl
  | cons kc rest ih =>
      obtain ⟨k, c⟩ := kc
      intro l2 acc a h
      simp only [tbChildren, List.cons_append] at h ⊢
      cases hrc : recurse c with
      | error e => simp only [hrc] at h; cases h
      | ok cb =>
          simp only [hrc] at h ⊢
          exact ih l2 _ a h

theorem tbChildren_mono_mem (recurse rc : Pid → Except LErr (FTime × FTime)) :
    ∀ (l : List (ProcessKind × Pid)),
      (∀ kc ∈ l, ∀ b, recurse kc.2 = .ok b → rc kc.2 = .ok b) →
      ∀ (acc b : FTime × FTime),
        tbChildren recurse l acc = .ok b → tbChildren rc l acc = .ok b := by
  intro l
  induction l with
  | nil => intro _ acc b h; exact h
  | cons kc rest ih =>
      obtain ⟨k, c⟩ := kc
      intro hm acc b h
      simp only [tbChildren] at h ⊢
      cases hrc : recurse c with
      | error e => simp only [hrc] at h; cases h
      | ok cb =>
          simp only [hrc] at h
          simp only [hm (k, c) (List.mem_cons_self _ _) cb hrc]
          exact ih (fun x hx => hm x (List.mem_cons_of_mem _ hx)) _ b h

theorem timesFold_minmax : ∀ (l : List Time) (x y c d : FTime),
    l.foldl (fun a t => (min a.1 (FTime.fin t), max a.2 (FTime.fin t)))
        (min x c, max y d) =
      (min (l.foldl
          (fun a t => (min a.1 (FTime.fin t), max a.2 (FTime.fin t))) (x, y)).1 c,
       max (l.foldl
          (fun a t => (min a.1 (FTime.fin t), max a.2 (FTime.fin t))) (x, y)).2 d) := by
  intro l
  induction l with
  | nil => intro x y c d; rfl
  | cons t rest ih =>
      intro x y c d
      simp only [List.foldl_cons]
      rw [min_right_comm x c (FTime.fin t)]
      rw [show max (max y d) (FTime.fin t) = max (max y (FTime.fin t)) d from by
        rw [max_assoc, max_comm d, ← max_assoc]]
      exact ih (min x (FTime.fin t)) (max y (FTime.fin t)) c d

theorem ownTimesFold_minmax (info : ProcessInfo) (x y c d : FTime) :
    ownTimesFold info (min x c, max y d) =
      (min (ownTimesFold info (x, y)).1 c,
       max (ownTimesFold info (x, y)).2 d) :=
  timesFold_minmax (processTimes info) x y c d

theorem processTimeBound_le_mono (rec : Recording) (c : Pid) (b : FTime × FTime)
    (f f' : Nat) (hle : f ≤ f') (h : processTimeBound rec f c = .ok b) :
    processTimeBound rec f' c = .ok b := by
  induction f', hle using Nat.le_induction with
  | base => exact h
  | succ g hg ih => exact processTimeBound_mono g rec c b ih

theorem processTimeBound_unique (rec : Recording) (c : Pid) (f1 f2 : Nat)
    (b1 b2 : FTime × FTime) (h1 : processTimeBound rec f1 c = .ok b1)
    (h2 : processTimeBound rec f2 c = .ok b2) : b1 = b2 := by
  rcases le_total f1 f2 with h | h
  · have hh := processTimeBound_le_mono rec c b1 f1 f2 h h1
    rw [hh] at h2
    injection h2
  · have hh := processTimeBound_le_mono rec c b2 f2 f1 h h2
    rw [hh] at h1
    injection h1 with h1
    exact h1.symm

theorem insertThread_tb_tpid (rec : Recording) (host tpid : Pid)
    (tinfo : ProcessInfo) (hfresh : mapGet rec.processes tpid = none)
    (hchildless : tinfo.children = []) (g : Nat) :
    processTimeBound (insertThread rec host tpid tinfo) (g + 1) tpid =
      .ok (ownTimesFold tinfo (ftTop, ftBot)) := by
  have hm := insertThread_mapGet_tpid rec host tpid tinfo hfresh
  simp only [processTimeBound, hm, hchildless, tbChildren]

theorem insertThread_tb (rec : Recording) (host tpid : Pid)
    (tinfo hinfo : ProcessInfo)
    (hhost : mapGet rec.processes host = some hinfo)
    (hfresh : mapGet rec.processes tpid = none)
    (hnoref : ∀ kv ∈ rec.processes, ∀ kc ∈ kv.2.children, kc.2 ≠ tpid)
    (hchildless : tinfo.children = [])
    (hcont : ∀ f b, processTimeBound rec f host = .ok b →
      b.1 ≤ (ownTimesFold tinfo (ftTop, ftBot)).1 ∧
      (ownTimesFold tinfo (ftTop, ftBot)).2 ≤ b.2) :
    ∀ (fuel : Nat) (c : Pid) (b : FTime × FTime), c ≠ tpid →
      processTimeBound rec fuel c = .ok b →
      processTimeBound (insertThread rec host tpid tinfo) (fuel + 1) c = .ok b := by
  intro fuel
  induction fuel with
  | zero => intro c b hc h; simp only [processTimeBound] at h; cases h
  | succ g ih =>
      intro c b hc h
      simp only [processTimeBound] at h
      have hgoal : processTimeBound (insertThread rec host tpid tinfo) (g + 1 + 1) c =
          (match mapGet (insertThread rec host tpid tinfo).processes c with
           | none => .ok (ftTop, ftBot)
           | some info =>
               match tbChildren
                   (fun x => processTimeBound (insertThread rec host tpid tinfo) (g + 1) x)
                   info.children (ftTop, ftBot) with
               | .error e => .error e
               | .ok acc => .ok (ownTimesFold info acc)) := rfl
      rw [hgoal]
      by_cases hch : c = host
      · subst hch
        simp only [insertThread_mapGet_host rec c tpid tinfo hinfo hhost]
        simp only [hhost] at h
        cases htb : tbChildren (fun x => processTimeBound rec g x)
            hinfo.children (ftTop, ftBot) with
        | error e => simp only [htb] at h; cases h
        | ok acc =>
            simp only [htb] at h
            have horig : processTimeBound rec (g + 1) c = .ok b := by
              simp only [processTimeBound, hhost, htb]
              exact h
            have htrans : tbChildren
                (fun x => processTimeBound (insertThread rec c tpid tinfo) (g + 1) x)
                hinfo.children (ftTop, ftBot) = .ok acc := by
              refine tbChildren_mono_mem _ _ hinfo.children ?_ _ _ htb
              intro kc hkc b0 hb0
              exact ih kc.2 b0
                (hnoref (c, hinfo) (mapGet_mem _ _ _ hhost) kc hkc) hb0
            have happ := tbChildren_append
              (fun x => processTimeBound (insertThread rec c tpid tinfo) (g + 1) x)
              hinfo.children [(.thread, tpid)] (ftTop, ftBot) acc htrans
            have htp := insertThread_tb_tpid rec c tpid tinfo hfresh hchildless g
            rw [happ]
            simp only [tbChildren, htp]
            have hc2 := hcont (g + 1) b horig
            injection h with h
            show Except.ok (ownTimesFold hinfo
              (min acc.1 (ownTimesFold tinfo (ftTop, ftBot)).1,
               max acc.2 (ownTimesFold tinfo (ftTop, ftBot)).2)) = Except.ok b
            rw [show (min acc.1 (ownTimesFold tinfo (ftTop, ftBot)).1,
                  max acc.2 (ownTimesFold tinfo (ftTop, ftBot)).2) =
                (min (acc.1, acc.2).1 (ownTimesFold tinfo (ftTop, ftBot)).1,
                 max (acc.1, acc.2).2 (ownTimesFold tinfo (ftTop, ftBot)).2) from rfl]
            rw [ownTimesFold_minmax]
            rw [show ((acc.1, acc.2) : FTime × FTime) = acc from rfl]
            rw [h]
            rw [min_eq_left hc2.1, max_eq_left hc2.2]
      · rw [insertThread_mapGet_other rec host tpid tinfo c hc hch]
        cases hinfo2 : mapGet rec.processes c with
        | none => simp only [hinfo2] at h ⊢; exact h
        | some info =>
            simp only [hinfo2] at h ⊢
            cases htb : tbChildren (fun x => processTimeBound rec g x)
                info.children (ftTop, ftBot) with
            | error e => simp only [htb] at h; cases h
            | ok acc =>
                simp only [htb] at h
                have htrans : tbChildren
                    (fun x => processTimeBound (insertThread rec host tpid tinfo) (g + 1) x)
                    info.children (ftTop, ftBot) = .ok acc := by
                  refine tbChildren_mono_mem _ _ info.children ?_ _ _ htb
                  intro kc hkc b0 hb0
                  exact ih kc.2 b0
                    (hnoref (c, info) (mapGet_mem _ _ _ hinfo2) kc hkc) hb0
                simp only [htrans]
                exact h

theorem flattenGo_congr_mem (recurse rc : Pid → Except LErr (List Pid)) :
    ∀ (l : List (ProcessKind × Pid)),
      (∀ kc ∈ l, ∀ s, recurse kc.2 = .ok s → rc kc.2 = .ok s) →
      ∀ r, flattenGo recurse l = .ok r → flattenGo rc l = .ok r := by
  intro l
  induction l with
  | nil => intro _ r h; exact h
  | cons kc rest ih =>
      obtain ⟨k, c⟩ := kc
      intro hm r h
      cases k with
      | process =>
          simp only [flattenGo] at h ⊢
          cases hr : flattenGo recurse rest with
          | error e => simp only [hr] at h; cases h
          | ok r0 =>
              simp only [hr] at h
              simp only [ih (fun x hx => hm x (List.mem_cons_of_mem _ hx)) r0 hr]
              exact h
      | thread =>
          simp only [flattenGo] at h ⊢
          cases hrc : recurse c with
          | error e => simp only [hrc] at h; cases h
          | ok sub =>
              simp only [hrc] at h
              simp only [hm (ProcessKind.thread, c) (List.mem_cons_self _ _) sub hrc]
              cases hr : flattenGo recurse rest with
              | error e => simp only [hr] at h; cases h
              | ok r0 =>
                  simp only [hr] at h
                  simp only [ih (fun x hx => hm x (List.mem_cons_of_mem _ hx)) r0 hr]
                  exact h

theorem flattenGo_append (recurse : Pid → Except LErr (List Pid)) :
    ∀ (l1 l2 : List (ProcessKind × Pid)) (r1 r2 : List Pid),
      flattenGo recurse l1 = .ok r1 → flattenGo recurse l2 = .ok r2 →
      flattenGo recurse (l1 ++ l2) = .ok (r1 ++ r2) := by
  intro l1
  induction l1 with
  | nil =>
      intro l2 r1 r2 h1 h2
      injection h1 with h1
      subst h1
      simp only [List.nil_append]
      exact h2
  | cons kc rest ih =>
      obtain ⟨k, c⟩ := kc
      intro l2 r1 r2 h1 h2
      cases k with
      | process =>
          simp only [flattenGo, List.cons_append] at h1 ⊢
          cases hr : flattenGo recurse rest with
          | error e => simp only [hr] at h1; cases h1
          | ok r0 =>
              simp only [hr] at h1
              simp only [List.append_eq, ih l2 r0 r2 hr h2]
              injection h1 with h1
              rw [← h1]
              rfl
      | thread =>
          simp only [flattenGo, List.cons_append] at h1 ⊢
          cases hrc : recurse c with
          | error e => simp only [hrc] at h1; cases h1
          | ok sub =>
              simp only [hrc] at h1
              cases hr : flattenGo recurse rest with
              | error e => simp only [hr] at h1; cases h1
              | ok r0 =>
                  simp only [hr] at h1
                  simp only [List.append_eq, ih l2 r0 r2 hr h2]
                  injection h1 with h1
                  rw [← h1]
                  rw [List.append_assoc]

theorem flattenGo_mem (recurse : Pid → Except LErr (List Pid))
    (P : Pid → Prop) :
    ∀ (l : List (ProcessKind × Pid)),
      (∀ kc ∈ l, kc.1 = ProcessKind.process → P kc.2) →
      (∀ kc ∈ l, kc.1 = ProcessKind.thread →
        ∀ s, recurse kc.2 = .ok s → ∀ x ∈ s, P x) →
      ∀ r, flattenGo recurse l = .ok r → ∀ x ∈ r, P x := by
  intro l
  induction l with
  | nil =>
      intro _ _ r h x hx
      injection h with h
      subst h
      cases hx
  | cons kc rest ih =>
      obtain ⟨k, c⟩ := kc
      intro hp ht r h x hx
      cases k with
      | process =>
          simp only [flattenGo] at h
          cases hr : flattenGo recurse rest with
          | error e => simp only [hr] at h; cases h
          | ok r0 =>
              simp only [hr] at h
              injection h with h
              subst h
              rcases List.mem_cons.mp hx with h1 | h1
              · subst h1
                exact hp (ProcessKind.process, x) (List.mem_cons_self _ _) rfl
              · exact ih (fun y hy => hp y (List.mem_cons_of_mem _ hy))
                  (fun y hy => ht y (List.mem_cons_of_mem _ hy)) r0 hr x h1
      | thread =>
          simp only [flattenGo] at h
          cases hrc : recurse c with
          | error e => simp only [hrc] at h; cases h
          | ok sub =>
              simp only [hrc] at h
              cases hr : flattenGo recurse rest with
              | error e => simp only [hr] at h; cases h
              | ok r0 =>
                  simp only [hr] at h
                  injection h with h
                  subst h
                  rcases List.mem_append.mp hx with h1 | h1
                  · exact ht (ProcessKind.thread, c) (List.mem_cons_self _ _)
                      rfl sub hrc x h1
                  · exact ih (fun y hy => hp y (List.mem_cons_of_mem _ hy))
                      (fun y hy => ht y (List.mem_cons_of_mem _ hy)) r0 hr x h1

theorem flattenChildren_no_tpid (rec : Recording) (tpid : Pid)
    (hnoref : ∀ kv ∈ rec.processes, ∀ kc ∈ kv.2.children, kc.2 ≠ tpid) :
    ∀ (fuel : Nat) (c : Pid) (l : List Pid),
      flattenChildren rec fuel c = .ok l → ∀ x ∈ l, x ≠ tpid := by
  intro fuel
  induction fuel with
  | zero => intro c l h; simp only [flattenChildren] at h; cases h
  | succ g ih =>
      intro c l h
      simp only [flattenChildren] at h
      cases hinfo : mapGet rec.processes c with
      | none =>
          simp only [hinfo] at h
          injection h with h
          subst h
          intro x hx
          cases hx
      | some info =>
          simp only [hinfo] at h
          refine flattenGo_mem _ _ info.children ?_ ?_ l h
          · intro kc hkc _
            exact hnoref (c, info) (mapGet_mem _ _ _ hinfo) kc hkc
          · intro kc hkc _ s hs x hx
            exact ih kc.2 s hs x hx

theorem insertThread_flatten (rec : Recording) (host tpid : Pid)
    (tinfo hinfo : ProcessInfo)
    (hhost : mapGet rec.processes host = some hinfo)
    (hfresh : mapGet rec.processes tpid = none)
    (hnoref : ∀ kv ∈ rec.processes, ∀ kc ∈ kv.2.children, kc.2 ≠ tpid)
    (hchildless : tinfo.children = []) :
    ∀ (fuel : Nat) (c : Pid) (l : List Pid), c ≠ tpid →
      flattenChildren rec fuel c = .ok l →
      flattenChildren (insertThread rec host tpid tinfo) (fuel + 1) c = .ok l := by
  intro fuel
  induction fuel with
  | zero => intro c l hc h; simp only [flattenChildren] at h; cases h
  | succ g ih =>
      intro c l hc h
      simp only [flattenChildren] at h
      have hgoal : flattenChildren (insertThread rec host tpid tinfo) (g + 1 + 1) c =
          (match mapGet (insertThread rec host tpid tinfo).processes c with
           | none => .ok []
           | some info => flattenGo
               (fun x => flattenChildren (insertThread rec host tpid tinfo) (g + 1) x)
               info.children) := rfl
      rw [hgoal]
      by_cases hch : c = host
      · subst hch
        simp only [insertThread_mapGet_host rec c tpid tinfo hinfo hhost]
        simp only [hhost] at h
        have htrans : flattenGo
            (fun x => flattenChildren (insertThread rec c tpid tinfo) (g + 1) x)
            hinfo.children = .ok l := by
          refine flattenGo_congr_mem _ _ hinfo.children ?_ l h
          intro kc hkc s hs
          exact ih kc.2 s (hnoref (c, hinfo) (mapGet_mem _ _ _ hhost) kc hkc) hs
        have hthread : flattenGo
            (fun x => flattenChildren (insertThread rec c tpid tinfo) (g + 1) x)
            [(.thread, tpid)] = .ok [] := by
          have htp : flattenChildren (insertThread rec c tpid tinfo) (g + 1) tpid =
              .ok [] := by
            simp only [flattenChildren,
              insertThread_mapGet_tpid rec c tpid tinfo hfresh, hchildless, flattenGo]
          simp only [flattenGo, htp, List.nil_append]
        have happ := flattenGo_append _ hinfo.children [(.thread, tpid)] l []
          htrans hthread
        rw [List.append_nil] at happ
        exact happ
      · rw [insertThread_mapGet_other rec host tpid tinfo c hc hch]
        cases hinfo2 : mapGet rec.processes c with
        | none => simp only [hinfo2] at h ⊢; exact h
        | some info =>
            simp only [hinfo2] at h ⊢
            refine flattenGo_congr_mem _ _ info.children ?_ l h
            intro kc hkc s hs
            exact ih kc.2 s (hnoref (c, info) (mapGet_mem _ _ _ hinfo2) kc hkc) hs

theorem tteAddStart_mem (l : EventTable) (t : FTime) (c : Pid) :
    ∀ kse ∈ tteAddStart l t c, ∀ x, (x ∈ kse.2.1 ∨ x ∈ kse.2.2) →
      (∃ k0 ∈ l, x ∈ k0.2.1 ∨ x ∈ k0.2.2) ∨ x = c := by
  induction l with
  | nil =>
      intro kse hkse x hx
      simp only [tteAddStart] at hkse
      rw [List.mem_singleton] at hkse
      subst hkse
      rcases hx with h | h
      · exact Or.inr (List.mem_singleton.mp h)
      · cases h
  | cons e rest ih =>
      obtain ⟨ek, es, ee⟩ := e
      intro kse hkse x hx
      simp only [tteAddStart] at hkse
      split at hkse
      · rcases List.mem_cons.mp hkse with h | h
        · subst h
          rcases hx with h1 | h1
          · rcases List.mem_append.mp h1 with h2 | h2
            · exact Or.inl ⟨(ek, es, ee), List.mem_cons_self _ _, Or.inl h2⟩
            · exact Or.inr (List.mem_singleton.mp h2)
          · exact Or.inl ⟨(ek, es, ee), List.mem_cons_self _ _, Or.inr h1⟩
        · exact Or.inl ⟨kse, List.mem_cons_of_mem _ h, hx⟩
      · rcases List.mem_cons.mp hkse with h | h
        · subst h
          exact Or.inl ⟨(ek, es, ee), List.mem_cons_self _ _, hx⟩
        · rcases ih kse h x hx with ⟨k0, hk0, hx0⟩ | hxc
          · exact Or.inl ⟨k0, List.mem_cons_of_mem _ hk0, hx0⟩
          · exact Or.inr hxc

theorem tteAddEnd_mem (l : EventTable) (t : FTime) (c : Pid) :
    ∀ kse ∈ tteAddEnd l t c, ∀ x, (x ∈ kse.2.1 ∨ x ∈ kse.2.2) →
      (∃ k0 ∈ l, x ∈ k0.2.1 ∨ x ∈ k0.2.2) ∨ x = c := by
  induction l with
  | nil =>
      intro kse hkse x hx
      simp only [tteAddEnd] at hkse
      rw [List.mem_singleton] at hkse
      subst hkse
      rcases hx with h | h
      · cases h
      · exact Or.inr (List.mem_singleton.mp h)
  | cons e rest ih =>
      obtain ⟨ek, es, ee⟩ := e
      intro kse hkse x hx
      simp only [tteAddEnd] at hkse
      split at hkse
      · rcases List.mem_cons.mp hkse with h | h
        · subst h
          rcases hx with h1 | h1
          · exact Or.inl ⟨(ek, es, ee), List.mem_cons_self _ _, Or.inl h1⟩
          · rcases List.mem_append.mp h1 with h2 | h2
            · exact Or.inl ⟨(ek, es, ee), List.mem_cons_self _ _, Or.inr h2⟩
            · exact Or.inr (List.mem_singleton.mp h2)
        · exact Or.inl ⟨kse, List.mem_cons_of_mem _ h, hx⟩
      · rcases List.mem_cons.mp hkse with h | h
        · subst h
          exact Or.inl ⟨(ek, es, ee), List.mem_cons_self _ _, hx⟩
        · rcases ih kse h x hx with ⟨k0, hk0, hx0⟩ | hxc
          · exact Or.inl ⟨k0, List.mem_cons_of_mem _ hk0, hx0⟩
          · exact Or.inr hxc

theorem buildEvents_mem (bound : Pid → Except LErr (FTime × FTime)) :
    ∀ (l : List Pid) (acc tte : EventTable), buildEvents bound l acc = .ok tte →
      ∀ kse ∈ tte, ∀ x, (x ∈ kse.2.1 ∨ x ∈ kse.2.2) →
        (∃ k0 ∈ acc, x ∈ k0.2.1 ∨ x ∈ k0.2.2) ∨ x ∈ l := by
  intro l
  induction l with
  | nil =>
      intro acc tte h kse hkse x hx
      simp only [buildEvents] at h
      injection h with h
      subst h
      exact Or.inl ⟨kse, hkse, hx⟩
  | cons c rest ih =>
      intro acc tte h kse hkse x hx
      simp only [buildEvents] at h
      cases hb : bound c with
      | error e => simp only [hb] at h; cases h
      | ok cb =>
          simp only [hb] at h
          by_cases hd : cb.1 = cb.2
          · rw [if_pos hd] at h
            rcases ih _ tte h kse hkse x hx with h1 | h1
            · exact Or.inl h1
            · exact Or.inr (List.mem_cons_of_mem _ h1)
          · rw [if_neg hd] at h
            rcases ih _ tte h kse hkse x hx with ⟨k0, hk0, hx0⟩ | h1
            · rcases tteAddEnd_mem _ _ _ k0 hk0 x hx0 with ⟨k1, hk1, hx1⟩ | hxc
              · rcases tteAddStart_mem _ _ _ k1 hk1 x hx1 with ⟨k2, hk2, hx2⟩ | hxc
                · exact Or.inl ⟨k2, hk2, hx2⟩
                · exact Or.inr (by rw [hxc]; exact List.mem_cons_self _ _)
              · exact Or.inr (by rw [hxc]; exact List.mem_cons_self _ _)
            · exact Or.inr (List.mem_cons_of_mem _ h1)

theorem buildEvents_congr (bound bd : Pid → Except LErr (FTime × FTime)) :
    ∀ (l : List Pid),
      (∀ c ∈ l, ∀ b, bound c = .ok b → bd c = .ok b) →
      ∀ (acc tte : EventTable),
        buildEvents bound l acc = .ok tte → buildEvents bd l acc = .ok tte := by
  intro l
  induction l with
  | nil => intro _ acc tte h; exact h
  | cons c rest ih =>
      intro hm acc tte h
      simp only [buildEvents] at h ⊢
      cases hb : bound c with
      | error e => simp only [hb] at h; cases h
      | ok cb =>
          simp only [hb] at h
          simp only [hm c (List.mem_cons_self _ _) cb hb]
          exact ih (fun x hx => hm x (List.mem_cons_of_mem _ hx)) _ tte h

theorem startsGo_congr (place pl2 : Pid → Except LErr (Option PlacedProcess)) :
    ∀ (S : List Pid),
      (∀ c ∈ S, ∀ r, place c = .ok r → pl2 c = .ok r) →
      ∀ (st st' : SweepState),
        startsGo place S st = .ok st' → startsGo pl2 S st = .ok st' := by
  intro S
  induction S with
  | nil => intro _ st st' h; exact h
  | cons c cs ih =>
      intro hm st st' h
      simp only [startsGo] at h ⊢
      cases hpl : place c with
      | error e => rw [hpl] at h; cases h
      | ok o =>
          rw [hpl] at h
          simp only [hm c (List.mem_cons_self _ _) o hpl]
          cases o with
          | none => exact ih (fun x hx => hm x (List.mem_cons_of_mem _ hx)) st st' h
          | some cp =>
              cases hfa : freeAllocate st.free cp.rowHeight with
              | mk row free' =>
                simp only [hfa] at h ⊢
                by_cases hact : (activeRemove st.active c).isSome = true
                · rw [if_pos hact] at h
                  cases h
                · rw [if_neg hact] at h
                  rw [if_neg hact]
                  exact ih (fun x hx => hm x (List.mem_cons_of_mem _ hx)) _ st' h

theorem sweepGo_congr (place pl2 : Pid → Except LErr (Option PlacedProcess)) :
    ∀ (L : List (List Pid × List Pid)),
      (∀ kb ∈ L, ∀ c ∈ kb.1, ∀ r, place c = .ok r → pl2 c = .ok r) →
      ∀ (st st' : SweepState),
        sweepGo place L st = .ok st' → sweepGo pl2 L st = .ok st' := by
  intro L
  induction L with
  | nil => intro _ st st' h; exact h
  | cons kb rest ih =>
      obtain ⟨S, E⟩ := kb
      intro hm st st' h
      simp only [sweepGo] at h ⊢
      cases hends : endsGo E st with
      | error e => simp only [hends] at h; cases h
      | ok st1 =>
          simp only [hends] at h
          cases hstarts : startsGo place S st1 with
          | error e => simp only [hstarts] at h; cases h
          | ok st2 =>
              simp only [hstarts] at h
              simp only [startsGo_congr place pl2 S
                (fun c hc => hm (S, E) (List.mem_cons_self _ _) c hc) st1 st2 hstarts]
              exact ih (fun x hx c hc => hm x (List.mem_cons_of_mem _ hx) c hc) st2 st' h

theorem insertThread_place (rec : Recording) (host tpid : Pid)
    (tinfo hinfo : ProcessInfo)
    (hhost : mapGet rec.processes host = some hinfo)
    (hfresh : mapGet rec.processes tpid = none)
    (hnoref : ∀ kv ∈ rec.processes, ∀ kc ∈ kv.2.children, kc.2 ≠ tpid)
    (hchildless : tinfo.children = [])
    (hcont : ∀ f b, processTimeBound rec f host = .ok b →
      b.1 ≤ (ownTimesFold tinfo (ftTop, ftBot)).1 ∧
      (ownTimesFold tinfo (ftTop, ftBot)).2 ≤ b.2) :
    ∀ (fuel : Nat) (pid : Pid) (depth : Nat) (r : Option PlacedProcess),
      pid ≠ tpid →
      placeProcess rec false fuel pid depth = .ok r →
      placeProcess (insertThread rec host tpid tinfo) false (fuel + 1) pid depth =
        .ok r := by
  intro fuel
  induction fuel with
  | zero => intro pid depth r hp h; simp only [placeProcess] at h; cases h
  | succ g ih =>
      intro pid depth r hp h
      have hh : placeProcess rec false (g + 1) pid depth =
          (match mapGet rec.processes pid with
           | none => .ok none
           | some _ =>
               match flattenChildren rec (g + 1) pid with
               | .error e => .error e
               | .ok children =>
                   match buildEvents (fun c => processTimeBound rec (g + 1) c)
                       children [] with
                   | .error e => .error e
                   | .ok tte =>
                       match sweepGo
                           (fun c => placeProcess rec false g c (depth + 1))
                           ((sortEvents tte).map (fun kv => kv.2))
                           { free := [], active := [], placed := [],
                             maxDepth := depth } with
                       | .error e => .error e
                       | .ok st =>
                           match processTimeBound rec (g + 1) pid with
                           | .error e => .error e
                           | .ok tb =>
                               .ok (some
                                 { pid := pid, depth := depth, rowOffset := 0,
                                   rowHeight := 1 + st.free.length,
                                   children := st.placed,
                                   maxDepth := st.maxDepth,
                                   timeBound := tb })) := rfl
      rw [hh] at h
      have hgoal : placeProcess (insertThread rec host tpid tinfo) false
            (g + 1 + 1) pid depth =
          (match mapGet (insertThread rec host tpid tinfo).processes pid with
           | none => .ok none
           | some _ =>
               match flattenChildren (insertThread rec host tpid tinfo)
                   (g + 1 + 1) pid with
               | .error e => .error e
               | .ok children =>
                   match buildEvents
                       (fun c => processTimeBound (insertThread rec host tpid tinfo)
                         (g + 1 + 1) c) children [] with
                   | .error e => .error e
                   | .ok tte =>
                       match sweepGo
                           (fun c => placeProcess (insertThread rec host tpid tinfo)
                             false (g + 1) c (depth + 1))
                           ((sortEvents tte).map (fun kv => kv.2))
                           { free := [], active := [], placed := [],
                             maxDepth := depth } with
                       | .error e => .error e
                       | .ok st =>
                           match processTimeBound (insertThread rec host tpid tinfo)
                               (g + 1 + 1) pid with
                           | .error e => .error e
                           | .ok tb =>
                               .ok (some
                                 { pid := pid, depth := depth, rowOffset := 0,
                                   rowHeight := 1 + st.free.length,
                                   children := st.placed,
                                   maxDepth := st.maxDepth,
                                   timeBound := tb })) := rfl
      rw [hgoal]
      cases hinfo2 : mapGet rec.processes pid with
      | none =>
          simp only [hinfo2] at h
          have hp2 : pid ≠ host := by
            intro hh2
            rw [hh2, hhost] at hinfo2
            cases hinfo2
          simp only [insertThread_mapGet_other rec host tpid tinfo pid hp hp2,
            hinfo2]
          exact h
      | some info =>
          simp only [hinfo2] at h
          have hsome : ∃ i2, mapGet (insertThread rec host tpid tinfo).processes
              pid = some i2 := by
            by_cases hph : pid = host
            · refine ⟨{ hinfo with
                  children := hinfo.children ++ [(.thread, tpid)] }, ?_⟩
              rw [hph]
              exact insertThread_mapGet_host rec host tpid tinfo hinfo hhost
            · refine ⟨info, ?_⟩
              rw [insertThread_mapGet_other rec host tpid tinfo pid hp hph]
              exact hinfo2
          obtain ⟨i2, hi2⟩ := hsome
          simp only [hi2]
          cases hfl : flattenChildren rec (g + 1) pid with
          | error e => simp only [hfl] at h; cases h
          | ok children =>
              simp only [hfl] at h
              simp only [insertThread_flatten rec host tpid tinfo hinfo hhost
                hfresh hnoref hchildless (g + 1) pid children hp hfl]
              cases hbe : buildEvents (fun c => processTimeBound rec (g + 1) c)
                  children [] with
              | error e => simp only [hbe] at h; cases h
              | ok tte =>
                  simp only [hbe] at h
                  have hchn : ∀ x ∈ children, x ≠ tpid :=
                    flattenChildren_no_tpid rec tpid hnoref (g + 1) pid
                      children hfl
                  have hbe2 : buildEvents
                      (fun c => processTimeBound (insertThread rec host tpid tinfo)
                        (g + 1 + 1) c) children [] = .ok tte := by
                    refine buildEvents_congr _ _ children ?_ [] tte hbe
                    intro c hc b hb
                    exact insertThread_tb rec host tpid tinfo hinfo hhost hfresh
                      hnoref hchildless hcont (g + 1) c b (hchn c hc) hb
                  simp only [hbe2]
                  cases hsw : sweepGo
                      (fun c => placeProcess rec false g c (depth + 1))
                      ((sortEvents tte).map (fun kv => kv.2))
                      { free := [], active := [], placed := [],
                        maxDepth := depth } with
                  | error e => simp only [hsw] at h; cases h
                  | ok st =>
                      simp only [hsw] at h
                      have hsw2 : sweepGo
                          (fun c => placeProcess (insertThread rec host tpid tinfo)
                            false (g + 1) c (depth + 1))
                          ((sortEvents tte).map (fun kv => kv.2))
                          { free := [], active := [], placed := [],
                            maxDepth := depth } = .ok st := by
                        refine sweepGo_congr _ _ _ ?_ _ st hsw
                        intro kb hkb c hc r0 hr0
                        rcases List.mem_map.mp hkb with ⟨kv, hkv, hkveq⟩
                        have hkv2 : kv ∈ tte :=
                          (sortEvents_perm tte).mem_iff.mp hkv
                        have hcx : c ∈ kv.2.1 := by
                          rw [hkveq]
                          exact hc
                        rcases buildEvents_mem _ children [] tte hbe kv hkv2 c
                            (Or.inl hcx) with ⟨k0, hk0, _⟩ | hcl
                        · cases hk0
                        · exact ih c (depth + 1) r0 (hchn c hcl) hr0
                      simp only [hsw2]
                      cases htb : processTimeBound rec (g + 1) pid with
                      | error e => simp only [htb] at h; cases h
                      | ok tb =>
                          simp only [htb] at h
                          simp only [insertThread_tb rec host tpid tinfo hinfo
                            hhost hfresh hnoref hchildless hcont (g + 1) pid tb
                            hp htb]
                          exact h

/-- **C4 (amended).** With `include_threads = false`, placement is *not* a
function of the effective process-child projection alone:
`process_time_bound` recurses through every child edge regardless of kind,
so a thread's times feed its host's time bound (see the counterexample).
Invariance does hold for inserting a fresh, unreferenced, childless thread
whose own time bound is contained in its host's: the placed tree is
unchanged (one extra fuel step covers the deeper thread chain). -/
theorem c4_thread_insertion_invariance (rec : Recording) (host tpid : Pid)
    (tinfo hinfo : ProcessInfo) (fuel : Nat) (r : Option PlacedProcess)
    (hroot : rec.rootPid ≠ some tpid)
    (hhost : mapGet rec.processes host = some hinfo)
    (hfresh : mapGet rec.processes tpid = none)
    (hnoref : ∀ kv ∈ rec.processes, ∀ kc ∈ kv.2.children, kc.2 ≠ tpid)
    (hchildless : tinfo.children = [])
    (hcont : ∀ f b, processTimeBound rec f host = .ok b →
      b.1 ≤ (ownTimesFold tinfo (ftTop, ftBot)).1 ∧
      (ownTimesFold tinfo (ftTop, ftBot)).2 ≤ b.2)
    (h : placeProcesses rec false fuel = .ok r) :
    placeProcesses (insertThread rec host tpid tinfo) false (fuel + 1) =
      .ok r := by
  simp only [placeProcesses] at h ⊢
  have hrp : (insertThread rec host tpid tinfo).rootPid = rec.rootPid := rfl
  rw [hrp]
  cases hr : rec.rootPid with
  | none =>
      rw [hr] at h
      exact h
  | some rp =>
      rw [hr] at h
      have hrpt : rp ≠ tpid := by
        intro he
        exact hroot (by rw [hr, he])
      exact insertThread_place rec host tpid tinfo hinfo hhost hfresh hnoref
        hchildless hcont fuel rp 0 r hrpt h

theorem c4_counterexample :
    flattenChildren recC4 10 1 = .ok [2, 3] ∧
    flattenChildren (insertThread recC4 2 4 thC4) 10 1 = .ok [2, 3] ∧
    flattenChildren recC4 10 2 = .ok [] ∧
    flattenChildren (insertThread recC4 2 4 thC4) 10 2 = .ok [] ∧
    (placeProcesses recC4 false 10).map (Option.map
      (fun t => (t.rowHeight, t.children.map (fun c => (c.pid, c.rowOffset))))) =
      .ok (some (2, [(2, 1), (3, 1)])) ∧
    (placeProcesses (insertThread recC4 2 4 thC4) false 10).map (Option.map
      (fun t => (t.rowHeight, t.children.map (fun c => (c.pid, c.rowOffset))))) =
      .ok (some (3, [(2, 1), (3, 2)])) := by
  exact ⟨rfl, rfl, rfl, rfl, rfl, rfl⟩

theorem c4_witness :
    placeProcesses (insertThread recC4 2 4 thC4w) false (10 + 1) =
      .ok (some (placedOrDefault (placeProcesses recC4 false 10))) := by
  refine c4_thread_insertion_invariance recC4 2 4 thC4w
    { pid := 2, time := { start := 1, tEnd := some 2 }, execs := [],
      children := [] }
    10 (some (placedOrDefault (placeProcesses recC4 false 10)))
    (by decide) rfl rfl (by decide) rfl ?_ rfl
  intro f b hb
  have h1 : processTimeBound recC4 1 2 = .ok (FTime.fin 1, FTime.fin 2) := rfl
  have h2 := processTimeBound_unique recC4 2 f 1 b (FTime.fin 1, FTime.fin 2)
    hb h1
  rw [h2]
  exact ⟨by decide, by decide⟩
